import Mathlib

/-!
Verification of the AI Canvas workflow-execution backend.

The definitions below are a shallow embedding of the Python services in
`src/backend/app`: graph topology analysis (`topology_service.py`),
workflow execution (`workflow_service.py`, `graph_execution_service.py`),
edge CRUD (`domain/services/edge_service.py`,
`infrastructure/database/repositories.py`), and the chat-provider adapters
(`services/groq_service.py`, `services/ollama_service.py`,
`infrastructure/ai_providers/base.py`, `infrastructure/ai_providers/groq_provider.py`,
`utils/streaming.py`).  Database rows are modelled as records in insertion
order (SQLite returns unordered queries in rowid = insertion order, and the
`timestamp` columns are monotone in insertion order); HTTP providers are
modelled as environment functions from the request payload to the response;
Python's unbounded recursion is modelled with a fuel parameter that is shown
never to run out on the inputs the theorems quantify over.
-/

namespace AICanvas

abbrev NodeId := String

/-- Directed edge of the analysis graph, as the (source, target) pair of
`Edge.source_node_id` / `Edge.target_node_id`. -/
abbrev EdgePair := NodeId × NodeId

/-- Single step of the stored edge relation: there is an edge from `a` to `b`. -/
def EdgeStep (edges : List EdgePair) (a b : NodeId) : Prop := (a, b) ∈ edges

/-- Reachability along stored edges (reflexive-transitive closure). -/
def Reaches (edges : List EdgePair) : NodeId → NodeId → Prop :=
  Relation.ReflTransGen (EdgeStep edges)

/-- Acyclicity of the stored edge relation: no edge closes a walk back to its
own source (this forbids self-loops as well). -/
def Acyclic (edges : List EdgePair) : Prop :=
  ∀ a b, (a, b) ∈ edges → ¬ Reaches edges b a

/-- Single step of an adjacency-list graph: `b` is a listed neighbor of `a`. -/
def AdjStep (adj : NodeId → List NodeId) (a b : NodeId) : Prop := b ∈ adj a

/-- Reachability in an adjacency-list graph. -/
def AdjReaches (adj : NodeId → List NodeId) : NodeId → NodeId → Prop :=
  Relation.ReflTransGen (AdjStep adj)

/-- Acyclicity of an adjacency-list graph. -/
def AdjAcyclic (adj : NodeId → List NodeId) : Prop :=
  ∀ a b, b ∈ adj a → ¬ AdjReaches adj b a

/-- Closed walk along stored edges: at least two entries, consecutive entries
are edges, and the walk returns to its starting node.  This is the shape the
spec requires of every reported cycle. -/
def IsClosedWalk (edges : List EdgePair) (c : List NodeId) : Prop :=
  2 ≤ c.length ∧ List.Chain' (fun a b => (a, b) ∈ edges) c ∧ c.head? = c.getLast?

/-- Initial adjacency dictionary of `TopologyService.detect_cycles` /
`compute_topological_sort`: one key per node of the graph, each mapped to an
empty neighbor list (`adjacency_list[node.id] = []`). -/
def initAdj (nodes : List NodeId) : NodeId → Option (List NodeId) :=
  fun u => if u ∈ nodes then some [] else none

/-- One step of the adjacency-building loop: when the edge's source is a key of
the dictionary, append the target to its neighbor list
(`if edge.source_node_id in adjacency_list: ... .append(edge.target_node_id)`). -/
def addEdgeAdj (adj : NodeId → Option (List NodeId)) (e : EdgePair) :
    NodeId → Option (List NodeId) :=
  fun u =>
    match adj e.1 with
    | some l => if u = e.1 then some (l ++ [e.2]) else adj u
    | none => adj u

/-- Adjacency dictionary built from the graph's nodes and edges, as in
`TopologyService.detect_cycles` and `compute_topological_sort`. -/
def buildAdj (nodes : List NodeId) (edges : List EdgePair) :
    NodeId → Option (List NodeId) :=
  edges.foldl addEdgeAdj (initAdj nodes)

/-- Neighbor lookup `adjacency_list.get(node_id, [])`. -/
def adjOf (nodes : List NodeId) (edges : List EdgePair) (u : NodeId) :
    List NodeId :=
  (buildAdj nodes edges u).getD []

/-- Recursive depth-first search of `compute_topological_sort`: mark the node
visited, recurse into unvisited neighbors, then prepend the node to the result
stack (`result.insert(0, node_id)`).  The state is (visited list used as a set,
result list).  Python's call-stack recursion is bounded by a fuel parameter;
the lemmas show the fuel chosen by the driver never runs out on graphs whose
edges stay inside the node set. -/
def topoDfs (adj : NodeId → List NodeId) :
    Nat → NodeId → List NodeId × List NodeId → List NodeId × List NodeId
  | 0, _, s => s
  | fuel + 1, u, s =>
    let s2 := (adj u).foldl
      (fun t v => if v ∈ t.1 then t else topoDfs adj fuel v t) (u :: s.1, s.2)
    (s2.1, u :: s2.2)

/-- Driver loop of `compute_topological_sort` (after its cycle check): run the
DFS from every not-yet-visited node, in stored node order, and return the
accumulated result stack. -/
def topoSortRun (nodes : List NodeId) (edges : List EdgePair) : List NodeId :=
  let adj := adjOf nodes edges
  (nodes.foldl
    (fun s u => if u ∈ s.1 then s else topoDfs adj (nodes.length + 1) u s)
    ([], [])).2

/-- Result of `TopologyService.detect_cycles`. -/
structure CycleReport where
  has_cycle : Bool
  cycles : List (List NodeId)
  deriving Repr, DecidableEq

/-- Recursive DFS of `detect_cycles` (`find_cycles`): mark the node visited and
extend the current path; for each neighbor, recurse when unvisited, and when
the neighbor is visited and on the current path record the cycle
`path[path.index(neighbor):] + [neighbor]`.  The threaded state is (visited
list used as a set, accumulated cycle list); the path is passed by copy, as in
the Python code.  The neighbor-loop body is split out as `cycStep`. -/
def findCycles (adj : NodeId → List NodeId) :
    Nat → NodeId → List NodeId → List NodeId × List (List NodeId) →
    List NodeId × List (List NodeId)
  | 0, _, _, s => s
  | fuel + 1, u, path, s =>
    (adj u).foldl
      (fun t v =>
        if v ∈ t.1 then
          if v ∈ path ++ [u] then
            (t.1, t.2 ++ [(path ++ [u]).drop ((path ++ [u]).indexOf v) ++ [v]])
          else t
        else findCycles adj fuel v (path ++ [u]) t)
      (u :: s.1, s.2)

/-- Body of the neighbor loop of `find_cycles`, abstracted over the extended
path: skip an already-visited neighbor, record a cycle when it lies on the
current path, and recurse otherwise. -/
def cycStep (adj : NodeId → List NodeId) (fuel : Nat) (path1 : List NodeId)
    (t : List NodeId × List (List NodeId)) (v : NodeId) :
    List NodeId × List (List NodeId) :=
  if v ∈ t.1 then
    if v ∈ path1 then
      (t.1, t.2 ++ [path1.drop (path1.indexOf v) ++ [v]])
    else t
  else findCycles adj fuel v path1 t

/-- Embedding of `TopologyService.detect_cycles`: build the adjacency
dictionary, run `find_cycles` from every not-yet-visited node, and report
whether any cycles were collected together with the cycle list. -/
def detectCycles (nodes : List NodeId) (edges : List EdgePair) : CycleReport :=
  let adj := adjOf nodes edges
  let s := nodes.foldl
    (fun s u => if u ∈ s.1 then s else findCycles adj (nodes.length + 1) u [] s)
    ([], [])
  { has_cycle := decide (0 < s.2.length), cycles := s.2 }

/-- Embedding of `TopologyService.compute_topological_sort`: return `none`
when `detect_cycles` reports a cycle, otherwise the DFS order. -/
def computeTopologicalSort (nodes : List NodeId) (edges : List EdgePair) :
    Option (List NodeId) :=
  if (detectCycles nodes edges).has_cycle then none
  else some (topoSortRun nodes edges)

/-! ### Database records and repository operations

Rows are kept in insertion order: SQLAlchemy queries without an ORDER BY
return SQLite rows in rowid (= insertion) order, and the `timestamp` columns
default to the insertion time, so timestamp order coincides with list order.
The Python float columns (`temperature`) are modelled as exact rationals;
no arithmetic is ever performed on them. -/

/-- Row of the `nodes` table (`app/models.py`, class `Node`). -/
structure NodeRec where
  id : NodeId
  graph_id : Nat
  name : String
  backend : String
  model : String
  system_message : Option String
  temperature : Rat
  max_tokens : Nat
  deriving Repr, DecidableEq

/-- Row of the `edges` table (`app/models.py`, class `Edge`). -/
structure EdgeRec where
  id : String
  source_node_id : NodeId
  target_node_id : NodeId
  edge_type : String
  deriving Repr, DecidableEq

/-- Row of the `conversations` table (`app/models.py`, class `Conversation`). -/
structure ConvRec where
  id : Nat
  node_id : NodeId
  deriving Repr, DecidableEq

/-- Row of the `messages` table (`app/models.py`, class `Message`). -/
structure MsgRec where
  conversation_id : Nat
  role : String
  content : String
  deriving Repr, DecidableEq

/-- Database state: graph ids plus the four row tables, each in insertion
order, and the next conversation primary key. -/
structure DBState where
  graphs : List Nat
  nodes : List NodeRec
  edges : List EdgeRec
  convs : List ConvRec
  msgs : List MsgRec
  nextConvId : Nat
  deriving Repr, DecidableEq

/-- `GraphRepository.get_by_id`. -/
def getGraph (st : DBState) (gid : Nat) : Option Nat :=
  st.graphs.find? (fun g => g == gid)

/-- `NodeRepository.get_by_id` / `Node.query.get`. -/
def getNode (st : DBState) (nid : NodeId) : Option NodeRec :=
  st.nodes.find? (fun n => n.id == nid)

/-- `NodeRepository.get_by_graph`. -/
def nodesByGraph (st : DBState) (gid : Nat) : List NodeRec :=
  st.nodes.filter (fun n => n.graph_id == gid)

/-- `EdgeRepository.get_by_id` / `Edge.query.get`. -/
def getEdge (st : DBState) (eid : String) : Option EdgeRec :=
  st.edges.find? (fun e => e.id == eid)

/-- `EdgeRepository.get_edges_for_graph`: all edges whose source is a node of
the graph. -/
def edgesForGraph (st : DBState) (gid : Nat) : List EdgeRec :=
  st.edges.filter
    (fun e => decide (e.source_node_id ∈ (nodesByGraph st gid).map NodeRec.id))

/-- `NodeRepository.get_parent_nodes`: nodes (in table order) whose id is the
source of some edge targeting the given node. -/
def getParentNodes (st : DBState) (nid : NodeId) : List NodeRec :=
  st.nodes.filter (fun n => decide (n.id ∈
    (st.edges.filter (fun e => e.target_node_id == nid)).map
      EdgeRec.source_node_id))

/-- `graph_analysis_service.get_parent_nodes`: walk the node's incoming edges
in table order and resolve each source id, dropping missing nodes. -/
def getParentNodesGA (st : DBState) (nid : NodeId) : List NodeRec :=
  (st.edges.filter (fun e => e.target_node_id == nid)).filterMap
    (fun e => getNode st e.source_node_id)

/-- `ConversationRepository.get_by_node` (no ORDER BY: insertion order). -/
def convsByNode (st : DBState) (nid : NodeId) : List ConvRec :=
  st.convs.filter (fun c => c.node_id == nid)

/-- Messages of one conversation in timestamp (= insertion) order. -/
def messagesOf (st : DBState) (cid : Nat) : List MsgRec :=
  st.msgs.filter (fun m => m.conversation_id == cid)

/-- `ConversationRepository.create`. -/
def createConv (st : DBState) (nid : NodeId) : ConvRec × DBState :=
  let c : ConvRec := ⟨st.nextConvId, nid⟩
  (c, { st with convs := st.convs ++ [c], nextConvId := st.nextConvId + 1 })

/-- `ConversationRepository.add_message` (and the inline
`db.session.add(Message(...))` blocks). -/
def addMessage (st : DBState) (cid : Nat) (role content : String) : DBState :=
  { st with msgs := st.msgs ++ [⟨cid, role, content⟩] }

/-- `EdgeRepository.create` called with its three positional arguments:
validate both endpoints, reuse the edge with the derived id when it already
exists, insert it otherwise. -/
def edgeRepoCreate (st : DBState) (source_id target_id edge_type : String) :
    Option EdgeRec × DBState :=
  match getNode st source_id, getNode st target_id with
  | some _, some _ =>
    let eid := source_id ++ "-" ++ target_id
    match getEdge st eid with
    | some e => (some e, st)
    | none =>
      let e : EdgeRec := ⟨eid, source_id, target_id, edge_type⟩
      (some e, { st with edges := st.edges ++ [e] })
  | _, _ => (none, st)

/-- `EdgeService.create_edge`: validate the endpoints, return the existing
edge when the derived id is already stored; otherwise the service invokes
`self.edge_repo.create(edge_data)`, passing the edge-field dictionary as the
single positional argument of `EdgeRepository.create(source_id, target_id,
edge_type)`, so Python raises a TypeError (missing `target_id`) before any
row is written; the service's catch-all rethrows it. -/
def edgeServiceCreateEdge (st : DBState) (source_id target_id : NodeId)
    (edge_type : String) : Except String (EdgeRec × DBState) :=
  match getNode st source_id with
  | none => .error ("Source node " ++ source_id ++ " not found")
  | some _ =>
    match getNode st target_id with
    | none => .error ("Target node " ++ target_id ++ " not found")
    | some _ =>
      let edge_id := source_id ++ "-" ++ target_id
      match getEdge st edge_id with
      | some e => .ok (e, st)
      | none =>
        .error
          "TypeError: create() missing 1 required positional argument: target_id"

/-- `EdgeService.delete_edge`: when no edge has the given id, log and report
success without touching the store; otherwise delete through the
repository. -/
def edgeServiceDeleteEdge (st : DBState) (edge_id : String) : Bool × DBState :=
  match getEdge st edge_id with
  | none => (true, st)
  | some _ => (true, { st with edges := st.edges.filter (fun e => !(e.id == edge_id)) })

/-! ### JSON payloads and the chat-provider adapters -/

/-- JSON values as produced by `json.loads` / `response.json()`; objects keep
their fields as an association list. -/
inductive Json where
  | null
  | str (s : String)
  | num (n : Int)
  | bool (b : Bool)
  | arr (elems : List Json)
  | obj (fields : List (String × Json))

/-- Dictionary lookup `d.get(k)` on an object (first matching key), `none` on
anything else. -/
def jGet : Json → String → Option Json
  | .obj fields, k => (fields.find? (fun f => f.1 == k)).map Prod.snd
  | _, _ => none

/-- Membership test `k in d`. -/
def jHasKey (j : Json) (k : String) : Bool := (jGet j k).isSome

/-- Dictionary lookup with default, `d.get(k, default)`. -/
def jGetD (j : Json) (k : String) (d : Json) : Json := (jGet j k).getD d

/-- String content of an optional JSON value, with a default for anything
that is not a string. -/
def jStrD (o : Option Json) (d : String) : String :=
  match o with
  | some (.str s) => s
  | _ => d

/-- Accumulator of the line loop of `parse_ollama_response`. -/
structure OllamaParseState where
  last_response : Option Json
  full_content : String

/-- Python type name of a decoded JSON value, as it appears in CPython
error messages. -/
def jsonTypeName : Json → String
  | .null => "NoneType"
  | .str _ => "str"
  | .num _ => "int"
  | .bool _ => "bool"
  | .arr _ => "list"
  | .obj _ => "dict"

/-- Python truthiness of a decoded JSON value. -/
def pythonTruthy : Json → Bool
  | .null => false
  | .str s => !(s == "")
  | .num n => !(n == 0)
  | .bool b => b
  | .arr xs => !xs.isEmpty
  | .obj fs => !fs.isEmpty

/-- One iteration of the line loop of `parse_ollama_response`.  An
undecodable line (`json.JSONDecodeError`) is skipped.  A decoded value first
becomes the last response; then `json_obj.get('message', \x7b\x7d).get('content')`
raises `AttributeError` when the decoded value, or a present `message`
value, is not a dictionary, and a truthy `content` raises `TypeError` on
`full_content += content` unless it is a string — either exception escapes
the loop to the outer handler.  A truthy string content is appended; a falsy
or absent content is skipped.  The error text models `str(e)` with the
runtime type filled in (CPython surrounds some words with quote characters,
elided here). -/
def ollamaLineStep (st : OllamaParseState) (line : Option Json) :
    Except String OllamaParseState :=
  match line with
  | none => .ok st
  | some j =>
    match j with
    | .obj _ =>
      match jGet j "message" with
      | none => .ok { st with last_response := some j }
      | some m =>
        match m with
        | .obj _ =>
          match jGet m "content" with
          | none => .ok { st with last_response := some j }
          | some c =>
            if pythonTruthy c then
              match c with
              | .str s =>
                .ok { last_response := some j,
                      full_content := st.full_content ++ s }
              | _ =>
                .error ("can only concatenate str (not \"" ++
                  jsonTypeName c ++ "\") to str")
            else .ok { st with last_response := some j }
        | _ => .error (jsonTypeName m ++ " object has no attribute get")
    | _ => .error (jsonTypeName j ++ " object has no attribute get")

/-- Line loop of `parse_ollama_response`: process the lines in order,
stopping at the first line whose processing raises. -/
def ollamaParseLines :
    List (Option Json) → OllamaParseState → Except String OllamaParseState
  | [], st => .ok st
  | line :: rest, st =>
    match ollamaLineStep st line with
    | .ok st1 => ollamaParseLines rest st1
    | .error e => .error e

/-- Embedding of `parse_ollama_response` (`app/utils/streaming.py`; the
method `OllamaProvider._parse_ollama_response` is a verbatim copy): on a
non-200 status report the status error; otherwise run the line loop over the
newline-split body (each entry is the parse outcome of one line).  An
exception escaping the loop reaches the outer handler, which returns
`\x7b"error": str(e)\x7d`.  Otherwise, when the last decoded value is truthy
(`if last_response:` — in particular an empty dictionary is falsy), rebuild
the normalized envelope from it and the accumulated content; else report
that no valid data was found. -/
def parseOllamaResponse (status : Nat) (lines : List (Option Json)) : Json :=
  if status ≠ 200 then
    .obj [("error",
      .str ("Ollama API returned status code " ++ toString status))]
  else
    match ollamaParseLines lines
      { last_response := none, full_content := "" } with
    | .error e => .obj [("error", .str e)]
    | .ok st =>
      match st.last_response with
      | some last =>
        if pythonTruthy last then
          .obj [("model", jGetD last "model" (.str "")),
                ("message", .obj [("role", .str "assistant"),
                                  ("content", .str st.full_content)])]
        else .obj [("error", .str "No valid response data found")]
      | none => .obj [("error", .str "No valid response data found")]

/-- Shape check for the normalized chat result
`\x7bmodel, message: \x7brole: "assistant", content\x7d\x7d` required by the spec. -/
def isNormalizedChatShape : Json → Bool
  | .obj [("model", _),
          ("message", .obj [("role", .str "assistant"),
                            ("content", .str _)])] => true
  | _ => false

/-- Message dictionary sent to a chat backend. -/
structure ChatMsg where
  role : String
  content : String
  deriving Repr, DecidableEq

/-- Per-parent context entry (`\x7bnode_id, last_response\x7d`). -/
structure ParentCtx where
  node_id : NodeId
  last_response : String
  deriving Repr, DecidableEq

/-- Request payload of a chat call (the per-provider token-limit field names
`num_predict` / `max_completion_tokens` both carry `max_tokens`). -/
structure ChatPayload where
  model : String
  messages : List ChatMsg
  temperature : Rat
  max_tokens : Nat
  deriving Repr, DecidableEq

/-- Outcome of a `requests.post` returning a single JSON body: a raised
exception, or a status code with the body's parse outcome. -/
inductive HttpResult where
  | exn (msg : String)
  | resp (status : Nat) (body : Except String Json)

/-- Outcome of a `requests.post` against the Ollama chat endpoint: a raised
exception, or a status code with the parse outcome of each body line. -/
inductive OllamaHttpResult where
  | exn (msg : String)
  | resp (status : Nat) (lines : List (Option Json))

/-- External chat providers: the Groq API key from the environment and the
two HTTP endpoints, as functions from the request payload. -/
structure ProviderEnv where
  groqKey : Option String
  groqPost : ChatPayload → HttpResult
  ollamaPost : ChatPayload → OllamaHttpResult

/-- Parent-context preamble prepended to the system message, one line per
parent: `Context from parent node <id>: <text>` separated by blank lines. -/
def contextText (parent_contexts : List ParentCtx) : String :=
  String.join (parent_contexts.map (fun ctx =>
    "Context from parent node " ++ ctx.node_id ++ ": " ++
      ctx.last_response ++ "\n\n"))

/-- Chat message list sent to a provider: the configured system message plus
the parent-context preamble, then the conversation history. -/
def providerMessages (system_message : String)
    (parent_contexts : List ParentCtx) (history : List ChatMsg) :
    List ChatMsg :=
  ⟨"system", system_message ++ "\n\n" ++ contextText parent_contexts⟩ ::
    history

/-- Embedding of `OllamaProvider.process_node`
(`infrastructure/ai_providers/base.py`): post the payload, parse with
`_parse_ollama_response`, and convert any failure into an `Error: ...`
string — this function never raises. -/
def ollamaProviderProcessNode (env : ProviderEnv) (model system_message : String)
    (temperature : Rat) (max_tokens : Nat) (parent_contexts : List ParentCtx)
    (history : List ChatMsg) : String :=
  let payload : ChatPayload :=
    ⟨model, providerMessages system_message parent_contexts history,
      temperature, max_tokens⟩
  match env.ollamaPost payload with
  | .exn e => "Error: " ++ e
  | .resp status lines =>
    let result := parseOllamaResponse status lines
    if jHasKey result "error" then
      "Error: " ++ jStrD (jGet result "error") ""
    else
      jStrD (jGet (jGetD result "message" (.obj [])) "content")
        "No response content"

/-- Embedding of `GroqProvider.process_node`
(`infrastructure/ai_providers/groq_provider.py`): the nested `chat` call
raises `ProviderError` on a missing key, transport failure, bad status or
undecodable body, and `process_node` converts every failure into an
`Error: ...` string — this function never raises. -/
def groqProviderProcessNode (env : ProviderEnv) (model system_message : String)
    (temperature : Rat) (max_tokens : Nat) (parent_contexts : List ParentCtx)
    (history : List ChatMsg) : String :=
  let payload : ChatPayload :=
    ⟨model, providerMessages system_message parent_contexts history,
      temperature, max_tokens⟩
  match env.groqKey with
  | none => "Error: GROQ_API_KEY not found in environment variables"
  | some _ =>
    match env.groqPost payload with
    | .exn e => "Error: Groq request error: " ++ e
    | .resp status body =>
      if status ≠ 200 then
        "Error: Groq API returned status code " ++ toString status
      else
        match body with
        | .error e => "Error: Invalid JSON response from Groq: " ++ e
        | .ok response =>
          match jGet response "choices" with
          | some (.arr (c0 :: _)) =>
            match jGet c0 "message" with
            | some m => jStrD (jGet m "content") ""
            | none => "Error: Invalid response format from Groq"
          | _ => "Error: Invalid response format from Groq"

/-- Embedding of `groq_service.handle_chat` (`services/groq_service.py`):
missing key, transport failure and undecodable bodies become `\x7b"error": ...\x7d`
objects; a provider-reported error becomes an `\x7b"error": ...\x7d` object; on a
body with a non-empty `choices` array whose first entry has a `message`, the
assistant content is persisted to the conversation — and the **raw Groq
envelope** is returned either way. -/
def groqHandleChat (env : ProviderEnv) (payload : ChatPayload)
    (conversation_id : Nat) (st : DBState) : Json × DBState :=
  match env.groqKey with
  | none =>
    (.obj [("error", .str "GROQ_API_KEY not found in environment variables")],
      st)
  | some _ =>
    match env.groqPost payload with
    | .exn e => (.obj [("error", .str e)], st)
    | .resp _ body =>
      match body with
      | .error e =>
        (.obj [("error", .str ("Invalid JSON response from Groq: " ++ e))], st)
      | .ok result =>
        if jHasKey result "error" then
          (.obj [("error", .str ("Groq API returned an error: " ++
            jStrD (jGet (jGetD result "error" (.obj [])) "message")
              "Unknown error"))], st)
        else
          match jGet result "choices" with
          | some (.arr (c0 :: _)) =>
            match jGet c0 "message" with
            | some m =>
              let content := jStrD (jGet m "content") ""
              (result, addMessage st conversation_id "assistant" content)
            | none => (result, st)
          | _ => (result, st)

/-- Embedding of `groq_service.process_node` (`services/groq_service.py`):
on success extract the first choice's message content, persist it as an
assistant message when a conversation row exists, and return it; every
failure becomes an `Error: ...` string with no write. -/
def groqServiceProcessNode (env : ProviderEnv) (model system_message : String)
    (temperature : Rat) (max_tokens : Nat) (parent_contexts : List ParentCtx)
    (history : List ChatMsg) (conversation : Option Nat) (st : DBState) :
    String × DBState :=
  let payload : ChatPayload :=
    ⟨model, providerMessages system_message parent_contexts history,
      temperature, max_tokens⟩
  match env.groqKey with
  | none => ("Error: GROQ_API_KEY not found in environment variables", st)
  | some _ =>
    match env.groqPost payload with
    | .exn e => ("Error: " ++ e, st)
    | .resp status body =>
      if status = 200 then
        match body with
        | .error e => ("Error: Invalid JSON response from Groq: " ++ e, st)
        | .ok result =>
          if jHasKey result "error" then
            ("Error: Groq API returned an error: " ++
              jStrD (jGet (jGetD result "error" (.obj [])) "message")
                "Unknown error", st)
          else
            match jGet result "choices" with
            | some (.arr (c0 :: _)) =>
              match jGet c0 "message" with
              | some m =>
                let content := jStrD (jGet m "content") ""
                match conversation with
                | some cid => (content, addMessage st cid "assistant" content)
                | none => (content, st)
              | none => ("Error: Invalid response format from Groq", st)
            | _ => ("Error: Invalid response format from Groq", st)
      else
        ("Error: Groq API returned status code " ++ toString status, st)

/-- Embedding of `ollama_service.process_node` (`services/ollama_service.py`):
parse with `parse_ollama_response`; on success extract the content (default
empty), persist it as an assistant message when a conversation row exists,
and return it; failures become `Error: ...` strings with no write. -/
def ollamaServiceProcessNode (env : ProviderEnv) (model system_message : String)
    (temperature : Rat) (max_tokens : Nat) (parent_contexts : List ParentCtx)
    (history : List ChatMsg) (conversation : Option Nat) (st : DBState) :
    String × DBState :=
  let payload : ChatPayload :=
    ⟨model, providerMessages system_message parent_contexts history,
      temperature, max_tokens⟩
  match env.ollamaPost payload with
  | .exn e => ("Error: " ++ e, st)
  | .resp status lines =>
    let result := parseOllamaResponse status lines
    if jHasKey result "error" then
      ("Error: " ++ jStrD (jGet result "error") "", st)
    else
      let content := jStrD (jGet (jGetD result "message" (.obj [])) "content") ""
      match conversation with
      | some cid => (content, addMessage st cid "assistant" content)
      | none => (content, st)

/-! ### Workflow execution -/

/-- Synthetic user prompt injected when a node's history has no user turn. -/
def defaultUserMessage : String :=
  "Process the context from parent nodes and provide insights."

/-- Parent-context text of one parent in `WorkflowService.execute_workflow`:
take the first conversation returned for the parent (the query has no ORDER
BY, so this is the first-created one), and within it the content of the last
assistant message; absent either, the empty string. -/
def parentContextWS (st : DBState) (pid : NodeId) : String :=
  match convsByNode st pid with
  | [] => ""
  | c :: _ =>
    match ((messagesOf st c.id).filter (fun m => m.role == "assistant")).getLast? with
    | some m => m.content
    | none => ""

/-- Parent contexts assembled by `WorkflowService.execute_workflow`. -/
def wsParentContexts (st : DBState) (nid : NodeId) : List ParentCtx :=
  (getParentNodes st nid).map (fun parent =>
    ⟨parent.id, parentContextWS st parent.id⟩)

/-- Report returned by `WorkflowService.execute_workflow` (its `results`
dictionary is kept as an association list in insertion order). -/
structure WorkflowReport where
  execution_order : List NodeId
  results : List (NodeId × String)
  deriving Repr, DecidableEq

/-- Per-node loop of `WorkflowService.execute_workflow`: resolve the node,
assemble parent contexts, get or create the conversation, synthesize and
persist the default user message when the history has no user turn, then
dispatch through `AIProviderFactory`.  A successful dispatch persists the
returned string as an assistant message (the embedded providers never raise,
so the per-node exception handler of the Python code is unreachable); an
unknown backend raises `ValueError` out of the loop, aborting the run.  The
third component is a trace of the provider invocations (node id and parent
contexts), recorded for the theorems. -/
def wsRunLoop (env : ProviderEnv) :
    List NodeId → DBState → List (NodeId × String) →
    List (NodeId × List ParentCtx) →
    Except String (List (NodeId × String)) × DBState ×
      List (NodeId × List ParentCtx)
  | [], st, results, trace => (.ok results, st, trace)
  | nid :: rest, st, results, trace =>
    match getNode st nid with
    | none =>
      wsRunLoop env rest st (results ++ [(nid, "Error: Node not found")]) trace
    | some node =>
      let parent_contexts := wsParentContexts st nid
      let cs := match convsByNode st nid with
        | c :: _ => (c, st)
        | [] => createConv st nid
      let conversation := cs.1
      let st1 := cs.2
      let history := (messagesOf st1 conversation.id).map
        (fun m => ChatMsg.mk m.role m.content)
      let needDefault := !(history.any (fun m => m.role == "user"))
      let history := if needDefault
        then history ++ [⟨"user", defaultUserMessage⟩] else history
      let st2 := if needDefault
        then addMessage st1 conversation.id "user" defaultUserMessage else st1
      if node.backend == "ollama" then
        let result := ollamaProviderProcessNode env node.model
          (node.system_message.getD "") node.temperature node.max_tokens
          parent_contexts history
        wsRunLoop env rest (addMessage st2 conversation.id "assistant" result)
          (results ++ [(nid, result)]) (trace ++ [(nid, parent_contexts)])
      else if node.backend == "groq" then
        let result := groqProviderProcessNode env node.model
          (node.system_message.getD "") node.temperature node.max_tokens
          parent_contexts history
        wsRunLoop env rest (addMessage st2 conversation.id "assistant" result)
          (results ++ [(nid, result)]) (trace ++ [(nid, parent_contexts)])
      else
        (.error ("Error executing workflow: Unsupported backend: " ++
          node.backend), st2, trace)

/-- Embedding of `WorkflowService.execute_workflow`
(`domain/services/workflow_service.py`): resolve the graph, run
`detect_cycles` and abort on a cycle, compute the topological order and abort
when it is falsy, then run the per-node loop; a `ValueError` escaping the
loop is caught by the outermost handler and returned as an error string with
all writes so far kept. -/
def executeWorkflowWS (env : ProviderEnv) (st : DBState) (gid : Nat) :
    (Option WorkflowReport × Option String) × DBState ×
      List (NodeId × List ParentCtx) :=
  match getGraph st gid with
  | none =>
    ((none, some ("Graph with ID " ++ toString gid ++ " not found")), st, [])
  | some _ =>
    let nodeIds := (nodesByGraph st gid).map NodeRec.id
    let edgePairs := (edgesForGraph st gid).map
      (fun e => (e.source_node_id, e.target_node_id))
    if (detectCycles nodeIds edgePairs).has_cycle then
      ((none, some "Graph contains cycles and cannot be executed sequentially"),
        st, [])
    else
      match computeTopologicalSort nodeIds edgePairs with
      | none => ((none, some "Failed to determine execution order"), st, [])
      | some order =>
        if order.isEmpty then
          ((none, some "Failed to determine execution order"), st, [])
        else
          match wsRunLoop env order st [] [] with
          | (.ok results, st2, trace) =>
            ((some ⟨order, results⟩, none), st2, trace)
          | (.error e, st2, trace) => ((none, some e), st2, trace)

/-- Parent-context text of one parent in
`graph_execution_service.execute_node`: the parent's first conversation
(`Conversation.query...first()`) and, within it, the most recent
assistant-role message (`order_by(timestamp.desc()).first()`); absent either,
the empty string. -/
def parentCtxGES (st : DBState) (parent_id : NodeId) : String :=
  match (convsByNode st parent_id).head? with
  | some c =>
    match ((messagesOf st c.id).filter
        (fun m => m.role == "assistant")).getLast? with
    | some m => m.content
    | none => ""
  | none => ""

/-- Parent contexts assembled by `graph_execution_service.execute_node`: the
parents in incoming-edge order, each with its `parentCtxGES` text. -/
def parentContextsGES (st : DBState) (nid : NodeId) : List ParentCtx :=
  (getParentNodesGA st nid).map (fun parent =>
    ⟨parent.id, parentCtxGES st parent.id⟩)

/-- Embedding of `graph_execution_service.execute_node`: resolve the node,
assemble parent contexts and the history of the node's first conversation,
synthesize the default user message when the history has no user turn
(persisting it only when a conversation row exists), then dispatch on the
backend string; an unknown backend becomes the node's `Error: ...` result
string.  A `None` system message would raise a TypeError while the provider
builds its payload, which the caller's handler converts to an `Error: ...`
string. -/
def executeNodeGES (env : ProviderEnv) (st : DBState) (nid : NodeId) :
    String × DBState :=
  match getNode st nid with
  | none => ("Node not found", st)
  | some node =>
    let parent_contexts := parentContextsGES st nid
    let conversation := (convsByNode st nid).head?
    let history := match conversation with
      | some c => (messagesOf st c.id).map (fun m => ChatMsg.mk m.role m.content)
      | none => []
    let needDefault := !(history.any (fun m => m.role == "user"))
    let history := if needDefault
      then history ++ [⟨"user", defaultUserMessage⟩] else history
    let st1 := if needDefault then
        match conversation with
        | some c => addMessage st c.id "user" defaultUserMessage
        | none => st
      else st
    if node.backend == "ollama" then
      match node.system_message with
      | some sys =>
        ollamaServiceProcessNode env node.model sys node.temperature
          node.max_tokens parent_contexts history
          (conversation.map ConvRec.id) st1
      | none =>
        ("Error: unsupported operand type(s) for +: NoneType and str", st1)
    else if node.backend == "groq" then
      match node.system_message with
      | some sys =>
        groqServiceProcessNode env node.model sys node.temperature
          node.max_tokens parent_contexts history
          (conversation.map ConvRec.id) st1
      | none =>
        ("Error: unsupported operand type(s) for +: NoneType and str", st1)
    else
      ("Error: Unsupported backend: " ++ node.backend, st1)

/-- Per-node loop of `graph_execution_service.execute_workflow`: execute each
node of the order in turn, recording its result string. -/
def runOrderGES (env : ProviderEnv) :
    List NodeId → DBState → List (NodeId × String) →
    List (NodeId × String) × DBState
  | [], st, results => (results, st)
  | nid :: rest, st, results =>
    let r := executeNodeGES env st nid
    runOrderGES env rest r.2 (results ++ [(nid, r.1)])

/-- Embedding of `graph_execution_service.execute_workflow` for runs whose
topological sort succeeded.  The order itself is produced by the external
networkx library (`get_topological_sort`), so it is taken as an argument;
the theorems using this definition pick graphs whose topological order is
unique, which pins the argument down completely. -/
def executeWorkflowGES (env : ProviderEnv) (st : DBState) (gid : Nat)
    (order : List NodeId) :
    (Option (List (NodeId × String)) × Option String) × DBState :=
  match getGraph st gid with
  | none => ((none, some "Graph not found"), st)
  | some _ =>
    let r := runOrderGES env order st []
    ((some r.1, none), r.2)

/-- Content contribution of one response line of `parse_ollama_response`:
the line's `message.content` string when present, otherwise nothing. -/
def lineContent (line : Option Json) : String :=
  match line with
  | some j =>
    match jGet j "message" with
    | some m =>
      match jGet m "content" with
      | some (.str c) => c
      | _ => ""
    | none => ""
  | none => ""

/-! ### Sample environments and database states used by the concrete runs -/

/-- Environment whose Ollama endpoint answers HTTP 500 and whose Groq key is
absent. -/
def envFail : ProviderEnv :=
  ⟨none, fun _ => HttpResult.exn "connection refused",
    fun _ => OllamaHttpResult.resp 500 []⟩

/-- Environment whose Ollama endpoint answers with a single-line envelope
carrying the assistant content `echo`. -/
def envEcho : ProviderEnv :=
  ⟨none, fun _ => HttpResult.exn "connection refused",
    fun _ => OllamaHttpResult.resp 200
      [some (.obj [("model", .str "m"),
        ("message", .obj [("role", .str "assistant"),
                          ("content", .str "echo")]),
        ("done", .bool true)])]⟩

/-- Environment with a Groq key whose Groq endpoint answers HTTP 500. -/
def envGroq500 : ProviderEnv :=
  ⟨some "k", fun _ => HttpResult.resp 500 (.error "boom"),
    fun _ => OllamaHttpResult.resp 500 []⟩

/-- Raw Groq chat-completion envelope (OpenAI shape, `choices` array). -/
def groqEnvelope : Json :=
  .obj [("id", .str "cmpl-1"),
        ("model", .str "m"),
        ("choices", .arr [.obj [("message",
          .obj [("role", .str "assistant"), ("content", .str "hi")])]])]

/-- Environment with a Groq key whose Groq endpoint answers 200 with
`groqEnvelope`. -/
def envGroqOk : ProviderEnv :=
  ⟨some "k", fun _ => HttpResult.resp 200 (.ok groqEnvelope),
    fun _ => OllamaHttpResult.resp 500 []⟩

/-- Store with two graphs, each a two-node two-edge cycle. -/
def cycState : DBState :=
  ⟨[1, 2],
   [⟨"A", 1, "A", "ollama", "m", some "s", 1, 100⟩,
    ⟨"B", 1, "B", "ollama", "m", some "s", 1, 100⟩,
    ⟨"C", 2, "C", "ollama", "m", some "s", 1, 100⟩,
    ⟨"D", 2, "D", "ollama", "m", some "s", 1, 100⟩],
   [⟨"A-B", "A", "B", "provides_context"⟩,
    ⟨"B-A", "B", "A", "provides_context"⟩,
    ⟨"C-D", "C", "D", "provides_context"⟩,
    ⟨"D-C", "D", "C", "provides_context"⟩],
   [], [], 1⟩

/-- Store with the chain `A → B` (both Ollama nodes) and no conversations. -/
def chainState : DBState :=
  ⟨[1],
   [⟨"A", 1, "A", "ollama", "m", some "sysA", 1, 100⟩,
    ⟨"B", 1, "B", "ollama", "m", some "sysB", 1, 100⟩],
   [⟨"A-B", "A", "B", "provides_context"⟩],
   [], [], 1⟩

/-- Store with two unconnected nodes and no edges. -/
def edgeState : DBState :=
  ⟨[1],
   [⟨"A", 1, "A", "ollama", "m", some "s", 1, 100⟩,
    ⟨"B", 1, "B", "ollama", "m", some "s", 1, 100⟩],
   [], [], [], 1⟩

/-- Store with one node `P` owning two conversations: the first-created one
ends with assistant content `old`, the newer one with `new`. -/
def twoConvState : DBState :=
  ⟨[1],
   [⟨"P", 1, "P", "ollama", "m", some "s", 1, 100⟩],
   [],
   [⟨1, "P"⟩, ⟨2, "P"⟩],
   [⟨1, "assistant", "old"⟩, ⟨2, "assistant", "new"⟩],
   3⟩

/-- Store with the chain `X → Y` where `X` uses the unregistered backend
`magic` and `Y` uses Ollama. -/
def unknownBackendState : DBState :=
  ⟨[1],
   [⟨"X", 1, "X", "magic", "m", some "s", 1, 100⟩,
    ⟨"Y", 1, "Y", "ollama", "m", some "s", 1, 100⟩],
   [⟨"X-Y", "X", "Y", "provides_context"⟩],
   [], [], 1⟩

/-- Store with the chain `G → H` where the Groq node `G` already has a
conversation holding one user message. -/
def groqConvState : DBState :=
  ⟨[1],
   [⟨"G", 1, "G", "groq", "m", some "sg", 1, 100⟩,
    ⟨"H", 1, "H", "ollama", "m", some "sh", 1, 100⟩],
   [⟨"G-H", "G", "H", "provides_context"⟩],
   [⟨1, "G"⟩],
   [⟨1, "user", "hi"⟩],
   2⟩

/-! ### Adjacency-dictionary characterization -/

lemma addEdgeAdj_isSome (g : NodeId → Option (List NodeId)) (e : EdgePair)
    (u : NodeId) : ((addEdgeAdj g e) u).isSome = (g u).isSome := by
  unfold addEdgeAdj
  cases hg : g e.1 with
  | some l =>
    by_cases hu : u = e.1
    · subst hu; simp [hg]
    · simp [hu]
  | none => rfl

lemma foldl_addEdgeAdj_isSome (es : List EdgePair) :
    ∀ (g : NodeId → Option (List NodeId)) (u : NodeId),
      ((es.foldl addEdgeAdj g) u).isSome = (g u).isSome := by
  induction es with
  | nil => intro g u; rfl
  | cons e es ih =>
    intro g u
    simpa [List.foldl_cons, ih (addEdgeAdj g e) u] using addEdgeAdj_isSome g e u

lemma foldl_addEdgeAdj_apply (es : List EdgePair) :
    ∀ (g : NodeId → Option (List NodeId)) (u : NodeId),
      (es.foldl addEdgeAdj g) u =
        (g u).map (fun l => l ++ (es.filter (fun e => e.1 == u)).map Prod.snd) := by
  induction es with
  | nil => intro g u; cases hgu : g u <;> simp [hgu]
  | cons e es ih =>
    intro g u
    rw [List.foldl_cons, ih (addEdgeAdj g e) u]
    have hfil : List.filter (fun x => x.1 == u) (e :: es) =
        if e.1 = u then e :: es.filter (fun x => x.1 == u)
        else es.filter (fun x => x.1 == u) := by
      by_cases h : e.1 = u <;> simp [List.filter_cons, h]
    unfold addEdgeAdj
    cases hge : g e.1 with
    | some l =>
      simp only [hge]
      by_cases hu : u = e.1
      · subst hu
        rw [if_pos rfl, hge, hfil, if_pos rfl]
        simp [List.append_assoc]
      · rw [if_neg hu, hfil, if_neg (fun h => hu h.symm)]
    | none =>
      simp only [hge]
      by_cases hu : u = e.1
      · subst hu
        rw [hge, hfil, if_pos rfl]
        simp
      · rw [hfil, if_neg (fun h => hu h.symm)]

/-- Closed form of the adjacency lookup: for a node of the graph the neighbor
list is the target of every stored edge whose source is that node, in stored
edge order; for ids outside the graph it is empty. -/
lemma adjOf_eq (nodes : List NodeId) (edges : List EdgePair) (u : NodeId) :
    adjOf nodes edges u =
      if u ∈ nodes then (edges.filter (fun e => e.1 == u)).map Prod.snd
      else [] := by
  unfold adjOf buildAdj
  rw [foldl_addEdgeAdj_apply edges (initAdj nodes) u]
  unfold initAdj
  by_cases hu : u ∈ nodes <;> simp [hu]

/-- Membership in the built adjacency dictionary: `v` is a neighbor of `u`
exactly when `u` is a node of the graph and `(u, v)` is a stored edge. -/
lemma mem_adjOf {nodes : List NodeId} {edges : List EdgePair} {u v : NodeId} :
    v ∈ adjOf nodes edges u ↔ u ∈ nodes ∧ (u, v) ∈ edges := by
  rw [adjOf_eq]
  by_cases hu : u ∈ nodes
  · simp only [if_pos hu, List.mem_map, List.mem_filter, beq_iff_eq]
    constructor
    · rintro ⟨e, ⟨he, h1⟩, h2⟩
      refine ⟨hu, ?_⟩
      have : e = (u, v) := by
        cases e; simp_all
      exact this ▸ he
    · rintro ⟨_, he⟩
      exact ⟨(u, v), ⟨he, rfl⟩, rfl⟩
  · simp [hu]

/-- Adjacency-graph acyclicity follows from edge-list acyclicity. -/
lemma adjAcyclic_of_acyclic {nodes : List NodeId} {edges : List EdgePair}
    (hac : Acyclic edges) : AdjAcyclic (adjOf nodes edges) := by
  intro a b hb hr
  refine hac a b (mem_adjOf.mp hb).2 ?_
  exact Relation.ReflTransGen.mono (fun x y h => (mem_adjOf.mp h).2) hr

/-! ### List helper lemmas -/

lemma pair_sublist_cons_of_mem {x y : NodeId} {l : List NodeId} (h : y ∈ l) :
    [x, y].Sublist (x :: l) :=
  (List.singleton_sublist.mpr h).cons₂ x

lemma sublist_append_left_of_sublist {l l₂ : List NodeId} (l₁ : List NodeId)
    (h : l.Sublist l₂) : l.Sublist (l₁ ++ l₂) :=
  h.trans (List.sublist_append_right l₁ l₂)

lemma length_lt_of_sublist_of_mem (a : NodeId) {s t : List NodeId}
    (hs : s.Sublist t) (hat : a ∈ t) (has : a ∉ s) : s.length < t.length := by
  refine lt_of_le_of_ne hs.length_le (fun heq => ?_)
  exact has (hs.eq_of_length heq ▸ hat)

lemma filterNotMem_length_mono (N : List NodeId) {vis vis' : List NodeId}
    (h : ∀ w ∈ vis, w ∈ vis') :
    (N.filter (fun x => x ∉ vis')).length ≤
      (N.filter (fun x => x ∉ vis)).length := by
  refine List.Sublist.length_le (List.monotone_filter_right N ?_)
  intro a ha
  simp only [decide_eq_true_eq] at ha ⊢
  exact fun hmem => ha (h a hmem)

lemma filterNotMem_length_lt (N : List NodeId) {vis : List NodeId} {u : NodeId}
    (hu : u ∈ N) (hnv : u ∉ vis) :
    (N.filter (fun x => x ∉ u :: vis)).length <
      (N.filter (fun x => x ∉ vis)).length := by
  have hsub : (N.filter (fun x => x ∉ u :: vis)).Sublist
      (N.filter (fun x => x ∉ vis)) := by
    refine List.monotone_filter_right N ?_
    intro a ha
    simp only [decide_eq_true_eq, List.mem_cons, not_or] at ha ⊢
    exact ha.2
  refine length_lt_of_sublist_of_mem u hsub ?_ ?_
  · simp [List.mem_filter, hu, hnv]
  · simp [List.mem_filter]

/-! ### Correctness of the topological-sort DFS -/

/-- Invariant of the DFS state of `compute_topological_sort`, relative to the
list `A` of ancestors currently on the (implicit) recursion stack: the visited
set is exactly ancestors plus finished nodes, the finished list has no
duplicates, is disjoint from the ancestors, stays inside the node set, and
every neighbor of a finished node is either an ancestor or appears strictly
later in the finished list. -/
structure TopoInv (N : List NodeId) (adj : NodeId → List NodeId)
    (A vis res : List NodeId) : Prop where
  visEq : ∀ w, w ∈ vis ↔ (w ∈ A ∨ w ∈ res)
  nodup : res.Nodup
  disj : ∀ x ∈ res, x ∉ A
  subN : ∀ x ∈ res, x ∈ N
  sorted : ∀ x ∈ res, ∀ y ∈ adj x, y ∈ A ∨ [x, y].Sublist res

lemma topoDfsFold_spec (N : List NodeId) (adj : NodeId → List NodeId)
    (fuel : Nat)
    (IH : ∀ u A vis res, u ∈ N → u ∉ vis →
      (N.filter (fun x => x ∉ vis)).length < fuel →
      TopoInv N adj A vis res →
      ∃ Δ vis2, topoDfs adj fuel u (vis, res) = (vis2, Δ ++ res) ∧
        u ∈ Δ ∧ (∀ w ∈ Δ, w ∈ N ∧ w ∉ vis ∧ AdjReaches adj u w) ∧
        (∀ w ∈ vis, w ∈ vis2) ∧ TopoInv N adj A vis2 (Δ ++ res)) :
    ∀ (vs : List NodeId) (A vis res : List NodeId), (∀ v ∈ vs, v ∈ N) →
      (N.filter (fun x => x ∉ vis)).length < fuel →
      TopoInv N adj A vis res →
      ∃ Δ vis2,
        vs.foldl (fun t v => if v ∈ t.1 then t else topoDfs adj fuel v t)
          (vis, res) = (vis2, Δ ++ res) ∧
        (∀ w ∈ Δ, w ∈ N ∧ w ∉ vis ∧ ∃ v ∈ vs, AdjReaches adj v w) ∧
        (∀ w ∈ vis, w ∈ vis2) ∧ (∀ v ∈ vs, v ∈ vis2) ∧
        TopoInv N adj A vis2 (Δ ++ res) := by
  intro vs
  induction vs with
  | nil =>
    intro A vis res _ _ hinv
    exact ⟨[], vis, rfl, by simp, fun w hw => hw, by simp, hinv⟩
  | cons v vs ih =>
    intro A vis res hvs hfuel hinv
    rw [List.foldl_cons]
    by_cases hv : v ∈ vis
    · rw [if_pos hv]
      obtain ⟨Δ, vis2, heq, hΔ, hmono, hvsmem, hinv2⟩ :=
        ih A vis res (fun w hw => hvs w (List.mem_cons_of_mem v hw)) hfuel hinv
      refine ⟨Δ, vis2, heq, ?_, hmono, ?_, hinv2⟩
      · intro w hw
        obtain ⟨h1, h2, v', hv', h3⟩ := hΔ w hw
        exact ⟨h1, h2, v', List.mem_cons_of_mem v hv', h3⟩
      · intro v' hv'
        rcases List.mem_cons.mp hv' with h | h
        · exact h ▸ hmono v hv
        · exact hvsmem v' h
    · rw [if_neg hv]
      obtain ⟨Δ1, vis1, heq1, hu1, hΔ1, hmono1, hinv1⟩ :=
        IH v A vis res (hvs v (List.mem_cons_self v vs)) hv hfuel hinv
      rw [heq1]
      have hfuel1 : (N.filter (fun x => x ∉ vis1)).length < fuel :=
        lt_of_le_of_lt (filterNotMem_length_mono N hmono1) hfuel
      obtain ⟨Δ2, vis2, heq2, hΔ2, hmono2, hvs2, hinv2⟩ :=
        ih A vis1 (Δ1 ++ res)
          (fun w hw => hvs w (List.mem_cons_of_mem v hw)) hfuel1 hinv1
      refine ⟨Δ2 ++ Δ1, vis2, ?_, ?_, ?_, ?_, ?_⟩
      · rw [heq2, List.append_assoc]
      · intro w hw
        rcases List.mem_append.mp hw with h | h
        · obtain ⟨h1, h2, v', hv', h3⟩ := hΔ2 w h
          refine ⟨h1, fun hwv => h2 (hmono1 w hwv), v',
            List.mem_cons_of_mem v hv', h3⟩
        · obtain ⟨h1, h2, h3⟩ := hΔ1 w h
          exact ⟨h1, h2, v, List.mem_cons_self v vs, h3⟩
      · intro w hw; exact hmono2 w (hmono1 w hw)
      · intro v' hv'
        rcases List.mem_cons.mp hv' with h | h
        · subst h
          refine hmono2 v' ?_
          exact (hinv1.visEq v').mpr (Or.inr (List.mem_append.mpr
            (Or.inl hu1)))
        · exact hvs2 v' h
      · rw [← List.append_assoc] at hinv2
        exact hinv2

lemma topoDfs_spec (N : List NodeId) (adj : NodeId → List NodeId)
    (hC : ∀ x y, y ∈ adj x → y ∈ N) (hA : AdjAcyclic adj) :
    ∀ (fuel : Nat) (u : NodeId) (A vis res : List NodeId), u ∈ N → u ∉ vis →
      (N.filter (fun x => x ∉ vis)).length < fuel →
      TopoInv N adj A vis res →
      ∃ Δ vis2, topoDfs adj fuel u (vis, res) = (vis2, Δ ++ res) ∧
        u ∈ Δ ∧ (∀ w ∈ Δ, w ∈ N ∧ w ∉ vis ∧ AdjReaches adj u w) ∧
        (∀ w ∈ vis, w ∈ vis2) ∧ TopoInv N adj A vis2 (Δ ++ res) := by
  intro fuel
  induction fuel with
  | zero =>
    intro u A vis res _ _ hfuel _
    exact absurd hfuel (Nat.not_lt_zero _)
  | succ fuel ihf =>
    intro u A vis res huN huv hfuel hinv
    -- invariant for the state after marking `u`, with `u` pushed on the stack
    have hu_nA : u ∉ A := fun h => huv ((hinv.visEq u).mpr (Or.inl h))
    have hu_nres : u ∉ res := fun h => huv ((hinv.visEq u).mpr (Or.inr h))
    have hinv1 : TopoInv N adj (u :: A) (u :: vis) res := by
      refine ⟨?_, hinv.nodup, ?_, hinv.subN, ?_⟩
      · intro w
        constructor
        · intro hw
          rcases List.mem_cons.mp hw with h | h
          · exact Or.inl (h ▸ List.mem_cons_self u A)
          · rcases (hinv.visEq w).mp h with h' | h'
            · exact Or.inl (List.mem_cons_of_mem u h')
            · exact Or.inr h'
        · intro hw
          rcases hw with h | h
          · rcases List.mem_cons.mp h with h' | h'
            · exact h' ▸ List.mem_cons_self u vis
            · exact List.mem_cons_of_mem u ((hinv.visEq w).mpr (Or.inl h'))
          · exact List.mem_cons_of_mem u ((hinv.visEq w).mpr (Or.inr h))
      · intro x hx
        intro hxA
        rcases List.mem_cons.mp hxA with h | h
        · exact hu_nres (h ▸ hx)
        · exact hinv.disj x hx h
      · intro x hx y hy
        rcases hinv.sorted x hx y hy with h | h
        · exact Or.inl (List.mem_cons_of_mem u h)
        · exact Or.inr h
    have hfuel1 : (N.filter (fun x => x ∉ u :: vis)).length < fuel :=
      lt_of_lt_of_le (filterNotMem_length_lt N huN huv)
        (Nat.lt_succ_iff.mp hfuel)
    obtain ⟨Δ2, vis2, heq2, hΔ2, hmono2, hvs2, hinv2⟩ :=
      topoDfsFold_spec N adj fuel ihf (adj u) (u :: A) (u :: vis) res
        (fun v hv => hC u v hv) hfuel1 hinv1
    have hstep : topoDfs adj (fuel + 1) u (vis, res) = (vis2, u :: (Δ2 ++ res)) := by
      simp only [topoDfs]
      rw [heq2]
    have hΔ2_ne_u : ∀ w ∈ Δ2, w ≠ u := by
      intro w hw hwu
      exact (hΔ2 w hw).2.1 (hwu ▸ List.mem_cons_self u vis)
    have hu_mem_vis2 : u ∈ vis2 := hmono2 u (List.mem_cons_self u vis)
    refine ⟨u :: Δ2, vis2, by rw [hstep]; rfl, List.mem_cons_self u Δ2,
      ?_, ?_, ?_⟩
    · intro w hw
      rcases List.mem_cons.mp hw with h | h
      · cases h
        exact ⟨huN, huv, Relation.ReflTransGen.refl⟩
      · obtain ⟨h1, h2, v, hv, h3⟩ := hΔ2 w h
        refine ⟨h1, fun hwv => h2 (List.mem_cons_of_mem u hwv),
          Relation.ReflTransGen.head hv h3⟩
    · intro w hw; exact hmono2 w (List.mem_cons_of_mem u hw)
    · -- re-establish the invariant with the original ancestor list
      refine ⟨?_, ?_, ?_, ?_, ?_⟩
      · intro w
        rw [hinv2.visEq w]
        constructor
        · rintro (h | h)
          · rcases List.mem_cons.mp h with h' | h'
            · exact Or.inr (h' ▸ List.mem_cons_self u (Δ2 ++ res))
            · exact Or.inl h'
          · exact Or.inr (List.mem_cons_of_mem u h)
        · rintro (h | h)
          · exact Or.inl (List.mem_cons_of_mem u h)
          · rcases List.mem_cons.mp h with h' | h'
            · exact Or.inl (h' ▸ List.mem_cons_self u A)
            · exact Or.inr h'
      · refine List.nodup_cons.mpr ⟨?_, hinv2.nodup⟩
        intro hu
        rcases List.mem_append.mp hu with h | h
        · exact hΔ2_ne_u u h rfl
        · exact hu_nres h
      · intro x hx
        rcases List.mem_cons.mp hx with h | h
        · exact h ▸ hu_nA
        · intro hxA
          exact hinv2.disj x h (List.mem_cons_of_mem u hxA)
      · intro x hx
        rcases List.mem_cons.mp hx with h | h
        · exact h ▸ huN
        · exact hinv2.subN x h
      · intro x hx y hy
        rcases List.mem_cons.mp hx with hxu | hxm
        · -- the freshly finished node: all neighbors are behind it
          subst hxu
          have hy_vis2 : y ∈ vis2 := hvs2 y hy
          rcases (hinv2.visEq y).mp hy_vis2 with h | h
          · rcases List.mem_cons.mp h with h' | h'
            · -- a self-loop would contradict acyclicity
              exact absurd Relation.ReflTransGen.refl (h' ▸ hA x y hy)
            · exact Or.inl h'
          · exact Or.inr (pair_sublist_cons_of_mem h)
        · rcases hinv2.sorted x hxm y hy with h | h
          · rcases List.mem_cons.mp h with h' | h'
            · -- an edge back to `u` closes a cycle: impossible
              subst h'
              exfalso
              rcases List.mem_append.mp hxm with hx2 | hxr
              · obtain ⟨_, _, v, hv, h3⟩ := hΔ2 x hx2
                exact hA x y hy (Relation.ReflTransGen.head hv h3)
              · rcases hinv.sorted x hxr y hy with h'' | h''
                · exact hu_nA h''
                · exact hu_nres (List.Sublist.subset h''
                    (List.mem_cons_of_mem x (List.mem_cons_self y [])))
            · exact Or.inl h'
          · exact Or.inr (h.cons u)

/-- Aggregate correctness of the DFS driver loop of
`compute_topological_sort`: on a duplicate-free node list whose edges stay
inside the node set and form no cycle, the computed order is a permutation of
the node list and respects every stored edge. -/
lemma topoSortRun_spec (nodes : List NodeId) (edges : List EdgePair)
    (hnd : nodes.Nodup)
    (hcl : ∀ e ∈ edges, e.1 ∈ nodes ∧ e.2 ∈ nodes)
    (hac : Acyclic edges) :
    (topoSortRun nodes edges).Perm nodes ∧
      ∀ e ∈ edges, [e.1, e.2].Sublist (topoSortRun nodes edges) := by
  have hC : ∀ x y, y ∈ adjOf nodes edges x → y ∈ nodes :=
    fun x y h => (hcl _ (mem_adjOf.mp h).2).2
  have hA := @adjAcyclic_of_acyclic nodes edges hac
  have hfuel : (nodes.filter (fun x => x ∉ ([] : List NodeId))).length <
      nodes.length + 1 :=
    Nat.lt_succ_of_le (List.length_filter_le _ _)
  have hinv0 : TopoInv nodes (adjOf nodes edges) [] [] [] :=
    ⟨by simp, List.nodup_nil, by simp, by simp, by simp⟩
  obtain ⟨Δ, vis2, heq, hΔ, _, hall, hinv⟩ :=
    topoDfsFold_spec nodes (adjOf nodes edges) (nodes.length + 1)
      (topoDfs_spec nodes (adjOf nodes edges) hC hA (nodes.length + 1))
      nodes [] [] [] (fun v hv => hv) hfuel hinv0
  rw [List.append_nil] at heq hinv
  have hrun : topoSortRun nodes edges = Δ := by
    have hdef : topoSortRun nodes edges =
        (List.foldl (fun t v => if v ∈ t.1 then t else
          topoDfs (adjOf nodes edges) (nodes.length + 1) v t) ([], []) nodes).2 :=
      rfl
    rw [hdef, heq]
  have hmem : ∀ x, x ∈ Δ ↔ x ∈ nodes := by
    intro x
    constructor
    · exact hinv.subN x
    · intro hx
      rcases (hinv.visEq x).mp (hall x hx) with h | h
      · exact absurd h (List.not_mem_nil x)
      · exact h
  rw [hrun]
  constructor
  · exact (List.perm_ext_iff_of_nodup hinv.nodup hnd).mpr hmem
  · intro e he
    have h1 : e.1 ∈ nodes := (hcl e he).1
    have hadj : e.2 ∈ adjOf nodes edges e.1 := by
      refine mem_adjOf.mpr ⟨h1, ?_⟩
      cases e
      exact he
    rcases hinv.sorted e.1 ((hmem e.1).mpr h1) e.2 hadj with h | h
    · exact absurd h (List.not_mem_nil _)
    · exact h

/-! ### Correctness of the cycle-detection DFS -/

lemma foldl_snd_extends (P : List NodeId → Prop)
    (f : List NodeId × List (List NodeId) → NodeId →
      List NodeId × List (List NodeId)) :
    ∀ (vs : List NodeId),
      (∀ s v, v ∈ vs → ∃ Δ, (f s v).2 = s.2 ++ Δ ∧ ∀ c ∈ Δ, P c) →
      ∀ s, ∃ Δ, (vs.foldl f s).2 = s.2 ++ Δ ∧ ∀ c ∈ Δ, P c := by
  intro vs
  induction vs with
  | nil => intro _ s; exact ⟨[], by simp, by simp⟩
  | cons v vs ih =>
    intro hf s
    obtain ⟨Δ1, h1, hP1⟩ := hf s v (List.mem_cons_self v vs)
    obtain ⟨Δ2, h2, hP2⟩ :=
      ih (fun s' v' hv' => hf s' v' (List.mem_cons_of_mem v hv')) (f s v)
    refine ⟨Δ1 ++ Δ2, ?_, ?_⟩
    · rw [List.foldl_cons, h2, h1, List.append_assoc]
    · intro c hc
      rcases List.mem_append.mp hc with h | h
      · exact hP1 c h
      · exact hP2 c h

lemma foldl_snd_congr
    (f : List NodeId × List (List NodeId) → NodeId →
      List NodeId × List (List NodeId)) :
    ∀ (vs : List NodeId),
      (∀ s v, v ∈ vs → (f s v).2 = s.2) →
      ∀ s, (vs.foldl f s).2 = s.2 := by
  intro vs
  induction vs with
  | nil => intro _ s; rfl
  | cons v vs ih =>
    intro hf s
    rw [List.foldl_cons,
      ih (fun s' v' hv' => hf s' v' (List.mem_cons_of_mem v hv')) (f s v),
      hf s v (List.mem_cons_self v vs)]

/-- Cycles only accumulate: `find_cycles` never removes an already-recorded
cycle. -/
lemma findCycles_mono (adj : NodeId → List NodeId) :
    ∀ (fuel : Nat) (u : NodeId) (path vis : List NodeId)
      (cys : List (List NodeId)),
      ∃ Δ, (findCycles adj fuel u path (vis, cys)).2 = cys ++ Δ := by
  intro fuel
  induction fuel with
  | zero => intro u path vis cys; exact ⟨[], by simp [findCycles]⟩
  | succ fuel ih =>
    intro u path vis cys
    have hstep := foldl_snd_extends (fun _ => True) (fun t v =>
      if v ∈ t.1 then
        if v ∈ path ++ [u] then
          (t.1, t.2 ++ [(path ++ [u]).drop ((path ++ [u]).indexOf v) ++ [v]])
        else t
      else findCycles adj fuel v (path ++ [u]) t) (adj u) ?_ (u :: vis, cys)
    · obtain ⟨Δ, hΔ, _⟩ := hstep
      exact ⟨Δ, by simp only [findCycles]; exact hΔ⟩
    · intro s v _
      obtain ⟨vis', cys'⟩ := s
      by_cases h1 : v ∈ vis'
      · by_cases h2 : v ∈ path ++ [u]
        · exact ⟨[(path ++ [u]).drop ((path ++ [u]).indexOf v) ++ [v]],
            by simp [h1, h2], by simp⟩
        · exact ⟨[], by simp [h1, h2], by simp⟩
      · obtain ⟨Δ, hΔ⟩ := ih v (path ++ [u]) vis' cys'
        exact ⟨Δ, by simp only [if_neg h1]; exact hΔ, by simp⟩

lemma chain'_reaches_getLast (adj : NodeId → List NodeId) :
    ∀ (l : List NodeId), List.Chain' (AdjStep adj) l →
      ∀ x ∈ l, ∀ z, l.getLast? = some z → AdjReaches adj x z := by
  intro l
  induction l with
  | nil => intro _ x hx; exact absurd hx (List.not_mem_nil x)
  | cons a t ih =>
    intro hchain x hx z hz
    cases t with
    | nil =>
      rcases List.mem_singleton.mp hx with rfl
      simp only [List.getLast?_singleton, Option.some.injEq] at hz
      exact hz ▸ Relation.ReflTransGen.refl
    | cons b t' =>
      have hrel : AdjStep adj a b ∧ List.Chain' (AdjStep adj) (b :: t') :=
        List.chain'_cons.mp hchain
      have hz' : (b :: t').getLast? = some z := by
        rwa [List.getLast?_cons_cons] at hz
      rcases List.mem_cons.mp hx with rfl | hx'
      · exact Relation.ReflTransGen.head hrel.1
          (ih hrel.2 b (List.mem_cons_self b t') z hz')
      · exact ih hrel.2 x hx' z hz'

lemma getLast?_drop_of_lt (l : List NodeId) (i : Nat) (hi : i < l.length) :
    (l.drop i).getLast? = l.getLast? := by
  conv_rhs => rw [← List.take_append_drop i l]
  rw [List.getLast?_append]
  rw [List.drop_eq_getElem_cons hi]
  cases hgl : (l[i] :: l.drop (i + 1)).getLast? with
  | none => simp at hgl; exact absurd hi (by omega)
  | some w => simp

/-- Every cycle recorded by `find_cycles` — the slice of the current DFS path
from the first occurrence of the revisited node, closed by that node — is a
closed walk of the adjacency graph. -/
lemma cycle_slice_walk (adj : NodeId → List NodeId) (path1 : List NodeId)
    (u v : NodeId) (hchain : List.Chain' (AdjStep adj) path1)
    (hlast : path1.getLast? = some u) (hv : v ∈ path1) (hadj : v ∈ adj u) :
    2 ≤ (path1.drop (path1.indexOf v) ++ [v]).length ∧
    List.Chain' (AdjStep adj) (path1.drop (path1.indexOf v) ++ [v]) ∧
    (path1.drop (path1.indexOf v) ++ [v]).head? =
      (path1.drop (path1.indexOf v) ++ [v]).getLast? := by
  have hi : path1.indexOf v < path1.length := List.indexOf_lt_length.mpr hv
  have hdropeq : path1.drop (path1.indexOf v) =
      v :: path1.drop (path1.indexOf v + 1) := by
    rw [List.drop_eq_getElem_cons hi, List.getElem_indexOf hi]
  refine ⟨?_, ?_, ?_⟩
  · rw [hdropeq]
    simp
  · refine List.chain'_append.mpr ⟨hchain.drop _, List.chain'_singleton v, ?_⟩
    intro x hx y hy
    simp only [List.head?_cons, Option.mem_def, Option.some.injEq] at hy
    have hlast' : (path1.drop (path1.indexOf v)).getLast? = some u := by
      rw [getLast?_drop_of_lt path1 _ hi, hlast]
    rw [hlast'] at hx
    simp only [Option.mem_def, Option.some.injEq] at hx
    subst hx
    subst hy
    exact hadj
  · rw [List.getLast?_concat, hdropeq]
    rfl

/-- On an acyclic adjacency graph `find_cycles` records nothing: whenever the
current path is a chain of edges ending in the current node, the cycle
accumulator is returned unchanged. -/
lemma findCycles_acyclic (adj : NodeId → List NodeId) (hA : AdjAcyclic adj) :
    ∀ (fuel : Nat) (u : NodeId) (path vis : List NodeId)
      (cys : List (List NodeId)),
      List.Chain' (AdjStep adj) (path ++ [u]) →
      (findCycles adj fuel u path (vis, cys)).2 = cys := by
  intro fuel
  induction fuel with
  | zero => intro u path vis cys _; simp [findCycles]
  | succ fuel ih =>
    intro u path vis cys hchain
    simp only [findCycles]
    refine foldl_snd_congr _ (adj u) ?_ (u :: vis, cys)
    intro s v hv
    obtain ⟨vis', cys'⟩ := s
    by_cases h1 : v ∈ vis'
    · by_cases h2 : v ∈ path ++ [u]
      · exfalso
        have hreach : AdjReaches adj v u :=
          chain'_reaches_getLast adj (path ++ [u]) hchain v h2 u
            (List.getLast?_concat path)
        exact hA u v hv hreach
      · simp [h1, h2]
    · simp only [if_neg h1]
      refine ih v (path ++ [u]) vis' cys' ?_
      refine List.chain'_append.mpr ⟨hchain, List.chain'_singleton v, ?_⟩
      intro x hx y hy
      simp only [List.head?_cons, Option.mem_def, Option.some.injEq] at hy
      rw [List.getLast?_concat path] at hx
      simp only [Option.mem_def, Option.some.injEq] at hx
      subst hx
      subst hy
      exact hv

lemma findCycles_succ (adj : NodeId → List NodeId) (fuel : Nat) (u : NodeId)
    (path : List NodeId) (s : List NodeId × List (List NodeId)) :
    findCycles adj (fuel + 1) u path s =
      (adj u).foldl (cycStep adj fuel (path ++ [u])) (u :: s.1, s.2) := rfl

lemma append_cancel_nil {α : Type} {l t : List α} (h : l ++ t = l) : t = [] := by
  have h2 : l.length + t.length = l.length := by
    have := congrArg List.length h
    simpa using this
  have h3 : t.length = 0 := by omega
  exact List.eq_nil_of_length_eq_zero h3

lemma cycStepFold_mono (adj : NodeId → List NodeId) (fuel : Nat)
    (path1 : List NodeId) (vs : List NodeId)
    (s : List NodeId × List (List NodeId)) :
    ∃ Δ, (vs.foldl (cycStep adj fuel path1) s).2 = s.2 ++ Δ := by
  have hf : ∀ t v, v ∈ vs → ∃ Δ,
      (cycStep adj fuel path1 t v).2 = t.2 ++ Δ ∧
        ∀ c ∈ Δ, (fun _ => True) c := by
    intro t v _
    obtain ⟨vis', cys'⟩ := t
    unfold cycStep
    by_cases h1 : v ∈ vis'
    · by_cases h2 : v ∈ path1
      · exact ⟨[path1.drop (path1.indexOf v) ++ [v]], by simp [h1, h2], by simp⟩
      · exact ⟨[], by simp [h1, h2], by simp⟩
    · obtain ⟨Δ, hΔ⟩ := findCycles_mono adj fuel v path1 vis' cys'
      exact ⟨Δ, by simp only [if_neg h1]; exact hΔ, by simp⟩
  obtain ⟨Δ, h, _⟩ := foldl_snd_extends (fun _ => True)
    (cycStep adj fuel path1) vs hf s
  exact ⟨Δ, h⟩

/-- Soundness of the recorded cycles: whenever the current path is an edge
chain ending in the current node, every cycle `find_cycles` appends is a
closed walk of the adjacency graph. -/
lemma findCycles_walk (adj : NodeId → List NodeId) :
    ∀ (fuel : Nat) (u : NodeId) (path vis : List NodeId)
      (cys : List (List NodeId)),
      List.Chain' (AdjStep adj) (path ++ [u]) →
      ∃ Δ, (findCycles adj fuel u path (vis, cys)).2 = cys ++ Δ ∧
        ∀ c ∈ Δ, 2 ≤ c.length ∧ List.Chain' (AdjStep adj) c ∧
          c.head? = c.getLast? := by
  intro fuel
  induction fuel with
  | zero =>
    intro u path vis cys _
    exact ⟨[], by simp [findCycles], by simp⟩
  | succ fuel ih =>
    intro u path vis cys hchain
    rw [findCycles_succ]
    have hf : ∀ t v, v ∈ adj u → ∃ Δ,
        (cycStep adj fuel (path ++ [u]) t v).2 = t.2 ++ Δ ∧
          ∀ c ∈ Δ, 2 ≤ c.length ∧ List.Chain' (AdjStep adj) c ∧
            c.head? = c.getLast? := by
      intro t v hv
      obtain ⟨vis', cys'⟩ := t
      unfold cycStep
      by_cases h1 : v ∈ vis'
      · by_cases h2 : v ∈ path ++ [u]
        · refine ⟨[(path ++ [u]).drop ((path ++ [u]).indexOf v) ++ [v]],
            by simp [h1, h2], ?_⟩
          intro c hc
          rcases List.mem_singleton.mp hc with rfl
          exact cycle_slice_walk adj (path ++ [u]) u v hchain
            (List.getLast?_concat path) h2 hv
        · exact ⟨[], by simp [h1, h2], by simp⟩
      · have hchain' : List.Chain' (AdjStep adj) ((path ++ [u]) ++ [v]) := by
          refine List.chain'_append.mpr ⟨hchain, List.chain'_singleton v, ?_⟩
          intro x hx y hy
          simp only [List.head?_cons, Option.mem_def, Option.some.injEq] at hy
          rw [List.getLast?_concat path] at hx
          simp only [Option.mem_def, Option.some.injEq] at hx
          subst hx
          subst hy
          exact hv
        obtain ⟨Δ, hΔ, hP⟩ := ih v (path ++ [u]) vis' cys' hchain'
        exact ⟨Δ, by simp only [if_neg h1]; exact hΔ, hP⟩
    obtain ⟨Δ, hΔ, hP⟩ := foldl_snd_extends _
      (cycStep adj fuel (path ++ [u])) (adj u) hf (u :: vis, cys)
    exact ⟨Δ, hΔ, hP⟩

/-- Invariant of the cycle-detection DFS state relative to the list `gray` of
nodes on the current path: the visited set is exactly gray plus finished
("black") nodes, the black list has no duplicates and is disjoint from the
gray path, and — provided no cycle has been recorded — every neighbor of a
black node appears strictly later in the black finish list. -/
structure CycInv (N : List NodeId) (adj : NodeId → List NodeId)
    (gray vis black : List NodeId) : Prop where
  visEq : ∀ w, w ∈ vis ↔ (w ∈ gray ∨ w ∈ black)
  nodup : black.Nodup
  disj : ∀ x ∈ black, x ∉ gray
  sorted : ∀ x ∈ black, ∀ y ∈ adj x, [x, y].Sublist black

lemma cycStepFold_black (N : List NodeId) (adj : NodeId → List NodeId)
    (fuel : Nat) (path1 : List NodeId)
    (IH : ∀ (u : NodeId) (path vis : List NodeId) (cys : List (List NodeId))
        (black : List NodeId), u ∈ N → u ∉ vis →
      (N.filter (fun x => x ∉ vis)).length < fuel →
      CycInv N adj path vis black →
      (findCycles adj fuel u path (vis, cys)).2 = cys →
      ∃ Δb vis2, findCycles adj fuel u path (vis, cys) = (vis2, cys) ∧
        u ∈ Δb ∧ (∀ w ∈ Δb, w ∉ vis) ∧ (∀ w ∈ vis, w ∈ vis2) ∧
        CycInv N adj path vis2 (Δb ++ black)) :
    ∀ (vs vis : List NodeId) (cys : List (List NodeId)) (black : List NodeId),
      (∀ v ∈ vs, v ∈ N) →
      (N.filter (fun x => x ∉ vis)).length < fuel →
      CycInv N adj path1 vis black →
      (vs.foldl (cycStep adj fuel path1) (vis, cys)).2 = cys →
      ∃ Δb vis2,
        vs.foldl (cycStep adj fuel path1) (vis, cys) = (vis2, cys) ∧
        (∀ w ∈ Δb, w ∉ vis) ∧ (∀ w ∈ vis, w ∈ vis2) ∧
        (∀ v ∈ vs, v ∈ Δb ++ black) ∧
        CycInv N adj path1 vis2 (Δb ++ black) := by
  intro vs
  induction vs with
  | nil =>
    intro vis cys black _ _ hinv _
    exact ⟨[], vis, rfl, by simp, fun w hw => hw, by simp, hinv⟩
  | cons v vs ih =>
    intro vis cys black hvs hfuel hinv hno
    rw [List.foldl_cons] at hno ⊢
    by_cases h1 : v ∈ vis
    · have h2 : v ∉ path1 := by
        intro h2
        have hstep : cycStep adj fuel path1 (vis, cys) v =
            (vis, cys ++ [path1.drop (path1.indexOf v) ++ [v]]) := by
          unfold cycStep
          rw [if_pos h1, if_pos h2]
        rw [hstep] at hno
        obtain ⟨Δr, hΔr⟩ := cycStepFold_mono adj fuel path1 vs
          (vis, cys ++ [path1.drop (path1.indexOf v) ++ [v]])
        have hΔr2 : (vs.foldl (cycStep adj fuel path1)
            (vis, cys ++ [path1.drop (path1.indexOf v) ++ [v]])).2 =
            (cys ++ [path1.drop (path1.indexOf v) ++ [v]]) ++ Δr := hΔr
        rw [hΔr2, List.append_assoc] at hno
        have h0 := append_cancel_nil hno
        simp at h0
      have hstep : cycStep adj fuel path1 (vis, cys) v = (vis, cys) := by
        unfold cycStep
        rw [if_pos h1, if_neg h2]
      rw [hstep] at hno ⊢
      obtain ⟨Δb, vis2, heq, hΔb, hmono, hblack, hinv2⟩ :=
        ih vis cys black (fun w hw => hvs w (List.mem_cons_of_mem v hw))
          hfuel hinv hno
      refine ⟨Δb, vis2, heq, hΔb, hmono, ?_, hinv2⟩
      intro v' hv'
      rcases List.mem_cons.mp hv' with rfl | h
      · rcases (hinv.visEq v').mp h1 with h | h
        · exact absurd h h2
        · exact List.mem_append.mpr (Or.inr h)
      · exact hblack v' h
    · have hstep : cycStep adj fuel path1 (vis, cys) v =
          findCycles adj fuel v path1 (vis, cys) := by
        unfold cycStep
        rw [if_neg h1]
      rw [hstep] at hno ⊢
      -- under the no-append hypothesis the nested call records nothing
      obtain ⟨Δ1, hΔ1⟩ := findCycles_mono adj fuel v path1 vis cys
      obtain ⟨Δr, hΔr⟩ := cycStepFold_mono adj fuel path1 vs
        (findCycles adj fuel v path1 (vis, cys))
      have hcall : (findCycles adj fuel v path1 (vis, cys)).2 = cys := by
        rw [hΔ1, List.append_assoc] at hΔr
        rw [hΔr] at hno
        have h0 := append_cancel_nil hno
        rw [List.append_eq_nil] at h0
        rw [hΔ1, h0.1, List.append_nil]
      obtain ⟨Δb1, vis1, heq1, hv1, hΔb1, hmono1, hinv1⟩ :=
        IH v path1 vis cys black (hvs v (List.mem_cons_self v vs)) h1
          hfuel hinv hcall
      rw [heq1] at hno ⊢
      have hfuel1 : (N.filter (fun x => x ∉ vis1)).length < fuel :=
        lt_of_le_of_lt (filterNotMem_length_mono N hmono1) hfuel
      obtain ⟨Δb2, vis2, heq2, hΔb2, hmono2, hblack2, hinv2⟩ :=
        ih vis1 cys (Δb1 ++ black)
          (fun w hw => hvs w (List.mem_cons_of_mem v hw)) hfuel1 hinv1 hno
      refine ⟨Δb2 ++ Δb1, vis2, heq2, ?_, ?_, ?_, ?_⟩
      · intro w hw
        rcases List.mem_append.mp hw with h | h
        · exact fun hwv => hΔb2 w h (hmono1 w hwv)
        · exact hΔb1 w h
      · intro w hw
        exact hmono2 w (hmono1 w hw)
      · intro v' hv'
        rcases List.mem_cons.mp hv' with rfl | h
        · exact List.mem_append.mpr (Or.inl (List.mem_append.mpr (Or.inr hv1)))
        · have := hblack2 v' h
          rwa [← List.append_assoc] at this
      · rw [← List.append_assoc] at hinv2
        exact hinv2

/-- Node-level completeness invariant for `find_cycles`: when the run records
no cycle, the visited nodes form a finish list on which every adjacency edge
points strictly forward. -/
lemma findCycles_black (N : List NodeId) (adj : NodeId → List NodeId)
    (hC : ∀ x y, y ∈ adj x → y ∈ N) :
    ∀ (fuel : Nat) (u : NodeId) (path vis : List NodeId)
      (cys : List (List NodeId)) (black : List NodeId), u ∈ N → u ∉ vis →
      (N.filter (fun x => x ∉ vis)).length < fuel →
      CycInv N adj path vis black →
      (findCycles adj fuel u path (vis, cys)).2 = cys →
      ∃ Δb vis2, findCycles adj fuel u path (vis, cys) = (vis2, cys) ∧
        u ∈ Δb ∧ (∀ w ∈ Δb, w ∉ vis) ∧ (∀ w ∈ vis, w ∈ vis2) ∧
        CycInv N adj path vis2 (Δb ++ black) := by
  intro fuel
  induction fuel with
  | zero =>
    intro u path vis cys black _ _ hfuel _ _
    exact absurd hfuel (Nat.not_lt_zero _)
  | succ fuel ihf =>
    intro u path vis cys black huN huv hfuel hinv hno
    rw [findCycles_succ] at hno ⊢
    have hpathvis : ∀ w ∈ path, w ∈ vis :=
      fun w hw => (hinv.visEq w).mpr (Or.inl hw)
    have hblackvis : ∀ w ∈ black, w ∈ vis :=
      fun w hw => (hinv.visEq w).mpr (Or.inr hw)
    have hinv1 : CycInv N adj (path ++ [u]) (u :: vis) black := by
      refine ⟨?_, hinv.nodup, ?_, hinv.sorted⟩
      · intro w
        rw [List.mem_cons, hinv.visEq w, List.mem_append, List.mem_singleton]
        tauto
      · intro x hx
        rw [List.mem_append, List.mem_singleton]
        rintro (h | rfl)
        · exact hinv.disj x hx h
        · exact huv (hblackvis x hx)
    have hfuel1 : (N.filter (fun x => x ∉ u :: vis)).length < fuel :=
      lt_of_lt_of_le (filterNotMem_length_lt N huN huv)
        (Nat.lt_succ_iff.mp hfuel)
    obtain ⟨Δb2, vis2, heq2, hΔb2, hmono2, hblack2, hinv2⟩ :=
      cycStepFold_black N adj fuel (path ++ [u]) ihf (adj u) (u :: vis) cys
        black (fun v hv => hC u v hv) hfuel1 hinv1 hno
    have hu_nvis2black : u ∉ Δb2 ++ black := by
      intro h
      rcases List.mem_append.mp h with h | h
      · exact hΔb2 u h (List.mem_cons_self u vis)
      · exact huv (hblackvis u h)
    refine ⟨u :: Δb2, vis2, heq2, List.mem_cons_self u Δb2, ?_, ?_, ?_⟩
    · intro w hw
      rcases List.mem_cons.mp hw with rfl | h
      · exact huv
      · exact fun hwv => hΔb2 w h (List.mem_cons_of_mem u hwv)
    · intro w hw
      exact hmono2 w (List.mem_cons_of_mem u hw)
    · refine ⟨?_, ?_, ?_, ?_⟩
      · intro w
        rw [hinv2.visEq w, List.mem_append, List.mem_singleton]
        have hmc : w ∈ (u :: Δb2) ++ black ↔
            (w = u ∨ w ∈ Δb2 ++ black) := by
          rw [List.cons_append, List.mem_cons]
        rw [hmc, List.mem_append]
        tauto
      · rw [List.cons_append]
        exact List.nodup_cons.mpr ⟨hu_nvis2black, hinv2.nodup⟩
      · intro x hx
        rw [List.cons_append, List.mem_cons] at hx
        rcases hx with rfl | h
        · exact fun hp => huv (hpathvis x hp)
        · intro hp
          exact hinv2.disj x h (List.mem_append.mpr (Or.inl hp))
      · intro x hx y hy
        rw [List.cons_append] at hx ⊢
        rcases List.mem_cons.mp hx with rfl | h
        · exact pair_sublist_cons_of_mem (hblack2 y hy)
        · exact (hinv2.sorted x h y hy).cons u

lemma detectCycles_def (nodes : List NodeId) (edges : List EdgePair) :
    detectCycles nodes edges =
      { has_cycle := decide (0 < ((nodes.foldl (fun s u => if u ∈ s.1 then s
          else findCycles (adjOf nodes edges) (nodes.length + 1) u [] s)
          ([], [])).2).length),
        cycles := (nodes.foldl (fun s u => if u ∈ s.1 then s
          else findCycles (adjOf nodes edges) (nodes.length + 1) u [] s)
          ([], [])).2 } := rfl

/-- On an acyclic edge set, `detect_cycles` reports no cycle and an empty
cycle list. -/
lemma detectCycles_of_acyclic (nodes : List NodeId) (edges : List EdgePair)
    (hac : Acyclic edges) :
    (detectCycles nodes edges).has_cycle = false ∧
      (detectCycles nodes edges).cycles = [] := by
  have hA : AdjAcyclic (adjOf nodes edges) := adjAcyclic_of_acyclic hac
  have hfold : ((nodes.foldl (fun s u => if u ∈ s.1 then s
      else findCycles (adjOf nodes edges) (nodes.length + 1) u [] s)
      ([], [])).2 : List (List NodeId)) = [] := by
    refine foldl_snd_congr _ nodes ?_ ([], [])
    intro s u _
    obtain ⟨vis', cys'⟩ := s
    by_cases h1 : u ∈ vis'
    · rw [if_pos h1]
    · rw [if_neg h1]
      exact findCycles_acyclic (adjOf nodes edges) hA (nodes.length + 1) u []
        vis' cys' (by simp)
  rw [detectCycles_def, hfold]
  simp

lemma detectDriver_black (N : List NodeId) (edges : List EdgePair)
    (hC : ∀ x y, y ∈ adjOf N edges x → y ∈ N) :
    ∀ (ns vis : List NodeId) (cys : List (List NodeId)) (black : List NodeId),
      (∀ v ∈ ns, v ∈ N) →
      CycInv N (adjOf N edges) [] vis black →
      ((ns.foldl (fun s u => if u ∈ s.1 then s
          else findCycles (adjOf N edges) (N.length + 1) u [] s)
          (vis, cys)).2 = cys) →
      ∃ Δb vis2,
        ns.foldl (fun s u => if u ∈ s.1 then s
          else findCycles (adjOf N edges) (N.length + 1) u [] s)
          (vis, cys) = (vis2, cys) ∧
        (∀ v ∈ ns, v ∈ Δb ++ black) ∧
        CycInv N (adjOf N edges) [] vis2 (Δb ++ black) := by
  intro ns
  induction ns with
  | nil =>
    intro vis cys black _ hinv _
    exact ⟨[], vis, rfl, by simp, hinv⟩
  | cons u ns ih =>
    intro vis cys black hns hinv hno
    rw [List.foldl_cons] at hno ⊢
    by_cases h1 : u ∈ vis
    · rw [if_pos h1] at hno ⊢
      obtain ⟨Δb, vis2, heq, hblack, hinv2⟩ :=
        ih vis cys black (fun v hv => hns v (List.mem_cons_of_mem u hv))
          hinv hno
      refine ⟨Δb, vis2, heq, ?_, hinv2⟩
      intro v hv
      rcases List.mem_cons.mp hv with rfl | h
      · rcases (hinv.visEq v).mp h1 with h | h
        · exact absurd h (List.not_mem_nil v)
        · exact List.mem_append.mpr (Or.inr h)
      · exact hblack v h
    · rw [if_neg h1] at hno ⊢
      -- thread the no-append hypothesis through the nested call
      obtain ⟨Δ1, hΔ1⟩ :=
        findCycles_mono (adjOf N edges) (N.length + 1) u [] vis cys
      obtain ⟨Δr, hΔr⟩ := foldl_snd_extends (fun _ => True)
        (fun s u => if u ∈ s.1 then s
          else findCycles (adjOf N edges) (N.length + 1) u [] s) ns
        (by
          intro t v _
          obtain ⟨vis', cys'⟩ := t
          by_cases hv : v ∈ vis'
          · exact ⟨[], by simp [hv], by simp⟩
          · obtain ⟨Δ, hΔ⟩ :=
              findCycles_mono (adjOf N edges) (N.length + 1) v [] vis' cys'
            exact ⟨Δ, by simp only [if_neg hv]; exact hΔ, by simp⟩)
        (findCycles (adjOf N edges) (N.length + 1) u [] (vis, cys))
      have hcall : (findCycles (adjOf N edges) (N.length + 1) u []
          (vis, cys)).2 = cys := by
        rw [hΔ1, List.append_assoc] at hΔr
        rw [hΔr.1] at hno
        have h0 := append_cancel_nil hno
        rw [List.append_eq_nil] at h0
        rw [hΔ1, h0.1, List.append_nil]
      have hfuel : (N.filter (fun x => x ∉ vis)).length < N.length + 1 :=
        Nat.lt_succ_of_le (List.length_filter_le _ _)
      obtain ⟨Δb1, vis1, heq1, hu1, hΔb1, hmono1, hinv1⟩ :=
        findCycles_black N (adjOf N edges) hC (N.length + 1) u [] vis cys
          black (hns u (List.mem_cons_self u ns)) h1 hfuel hinv hcall
      rw [heq1] at hno ⊢
      obtain ⟨Δb2, vis2, heq2, hblack2, hinv2⟩ :=
        ih vis1 cys (Δb1 ++ black)
          (fun v hv => hns v (List.mem_cons_of_mem u hv)) hinv1 hno
      refine ⟨Δb2 ++ Δb1, vis2, heq2, ?_, ?_⟩
      · intro v hv
        rcases List.mem_cons.mp hv with rfl | h
        · exact List.mem_append.mpr (Or.inl (List.mem_append.mpr (Or.inr hu1)))
        · have := hblack2 v h
          rwa [← List.append_assoc] at this
      · rw [← List.append_assoc] at hinv2
        exact hinv2

lemma indexOf_lt_of_pair_sublist {x y : NodeId} :
    ∀ {l : List NodeId}, [x, y].Sublist l → l.Nodup →
      l.indexOf x < l.indexOf y := by
  intro l
  induction l with
  | nil =>
    intro h _
    exact absurd (List.sublist_nil.mp h) (by simp)
  | cons z t ih =>
    intro h hnd
    rw [List.nodup_cons] at hnd
    cases h with
    | cons _ h' =>
      have hx : x ∈ t := h'.subset (by simp)
      have hy : y ∈ t := h'.subset (by simp)
      have hzx : z ≠ x := fun he => hnd.1 (he ▸ hx)
      have hzy : z ≠ y := fun he => hnd.1 (he ▸ hy)
      rw [List.indexOf_cons_ne t hzx, List.indexOf_cons_ne t hzy]
      exact Nat.succ_lt_succ (ih h' hnd.2)
    | cons₂ _ h' =>
      have hy : y ∈ t := h'.subset (by simp)
      have hxy : x ≠ y := fun he => hnd.1 (he ▸ hy)
      rw [List.indexOf_cons_self, List.indexOf_cons_ne t hxy]
      exact Nat.succ_pos _

lemma indexOf_le_of_reaches {B : List NodeId} {edges : List EdgePair}
    {nodes : List NodeId}
    (hcl : ∀ e ∈ edges, e.1 ∈ nodes ∧ e.2 ∈ nodes)
    (hmem : ∀ x ∈ nodes, x ∈ B) (hnd : B.Nodup)
    (hsort : ∀ x ∈ B, ∀ y ∈ adjOf nodes edges x, [x, y].Sublist B)
    {a b : NodeId} (h : Reaches edges a b) : B.indexOf a ≤ B.indexOf b := by
  induction h with
  | refl => exact le_refl _
  | tail _ hedge ih =>
    refine le_trans ih (le_of_lt ?_)
    have h1 := hcl _ hedge
    have hadj := mem_adjOf.mpr ⟨h1.1, hedge⟩
    exact indexOf_lt_of_pair_sublist (hsort _ (hmem _ h1.1) _ hadj) hnd

/-- If the cycle detector finishes with an empty cycle list, the stored edges
are acyclic: the finish list produced by the DFS is a witness ordering on
which every edge points strictly forward. -/
lemma acyclic_of_detectCycles_nil (nodes : List NodeId) (edges : List EdgePair)
    (hnd : nodes.Nodup)
    (hcl : ∀ e ∈ edges, e.1 ∈ nodes ∧ e.2 ∈ nodes)
    (hempty : (detectCycles nodes edges).cycles = []) : Acyclic edges := by
  have hC : ∀ x y, y ∈ adjOf nodes edges x → y ∈ nodes :=
    fun x y h => (hcl _ (mem_adjOf.mp h).2).2
  have hinv0 : CycInv nodes (adjOf nodes edges) [] [] [] :=
    ⟨by simp, List.nodup_nil, by simp, by simp⟩
  rw [detectCycles_def] at hempty
  simp only at hempty
  obtain ⟨Δb, vis2, _, hblack, hinv⟩ :=
    detectDriver_black nodes edges hC nodes [] [] [] (fun v hv => hv)
      hinv0 hempty
  rw [List.append_nil] at hblack hinv
  intro a b hab hr
  have ha : a ∈ Δb := hblack a (hcl _ hab).1
  have hadj : b ∈ adjOf nodes edges a := mem_adjOf.mpr ⟨(hcl _ hab).1, hab⟩
  have hlt : Δb.indexOf a < Δb.indexOf b :=
    indexOf_lt_of_pair_sublist (hinv.sorted a ha b hadj) hinv.nodup
  have hle : Δb.indexOf b ≤ Δb.indexOf a :=
    indexOf_le_of_reaches hcl hblack hinv.nodup hinv.sorted hr
  omega

/-- On a cyclic edge set, `detect_cycles` reports a cycle and a non-empty
cycle list. -/
lemma detectCycles_of_cyclic (nodes : List NodeId) (edges : List EdgePair)
    (hnd : nodes.Nodup)
    (hcl : ∀ e ∈ edges, e.1 ∈ nodes ∧ e.2 ∈ nodes)
    (hcyc : ¬ Acyclic edges) :
    (detectCycles nodes edges).has_cycle = true ∧
      (detectCycles nodes edges).cycles ≠ [] := by
  have hne : (detectCycles nodes edges).cycles ≠ [] := by
    intro h
    exact hcyc (acyclic_of_detectCycles_nil nodes edges hnd hcl h)
  refine ⟨?_, hne⟩
  rw [detectCycles_def] at hne ⊢
  simp only at hne ⊢
  simpa [List.length_pos] using hne

/-- Every cycle ever reported by `detect_cycles` is a closed walk over the
stored edges. -/
lemma detectCycles_walks (nodes : List NodeId) (edges : List EdgePair) :
    ∀ c ∈ (detectCycles nodes edges).cycles, IsClosedWalk edges c := by
  have hstep := foldl_snd_extends
    (fun c => 2 ≤ c.length ∧ List.Chain' (AdjStep (adjOf nodes edges)) c ∧
      c.head? = c.getLast?)
    (fun s u => if u ∈ s.1 then s
      else findCycles (adjOf nodes edges) (nodes.length + 1) u [] s) nodes
    (by
      intro t u _
      obtain ⟨vis', cys'⟩ := t
      by_cases h1 : u ∈ vis'
      · exact ⟨[], by simp [h1], by simp⟩
      · obtain ⟨Δ, hΔ, hP⟩ := findCycles_walk (adjOf nodes edges)
          (nodes.length + 1) u [] vis' cys' (by simp)
        exact ⟨Δ, by simp only [if_neg h1]; exact hΔ, hP⟩)
    ([], [])
  obtain ⟨Δ, hΔ, hP⟩ := hstep
  intro c hc
  rw [detectCycles_def] at hc
  simp only at hc
  rw [hΔ, List.nil_append] at hc
  obtain ⟨h1, h2, h3⟩ := hP c hc
  refine ⟨h1, ?_, h3⟩
  refine h2.imp ?_
  intro a b hab
  exact (mem_adjOf.mp hab).2

/-! ### Small helper lemmas for the claim theorems -/

/-- Sufficient condition for acyclicity: a rank function that strictly
increases along every stored edge. -/
lemma acyclic_of_ranking (edges : List EdgePair) (f : NodeId → Nat)
    (hf : ∀ e ∈ edges, f e.1 < f e.2) : Acyclic edges := by
  intro a b hab hr
  have hmono : ∀ {x y : NodeId}, Reaches edges x y → f x ≤ f y := by
    intro x y h
    induction h with
    | refl => exact le_refl _
    | tail _ hedge ih => exact le_trans ih (le_of_lt (hf _ hedge))
  have h1 : f b ≤ f a := hmono hr
  have h2 : f a < f b := hf (a, b) hab
  omega

lemma string_join_foldl :
    ∀ (t : List String) (acc : String),
      t.foldl (fun r s => r ++ s) acc = acc ++ String.join t := by
  intro t
  induction t with
  | nil =>
    intro acc
    simp [String.join]
  | cons s t ih =>
    intro acc
    have hcons : String.join (s :: t) = s ++ String.join t := by
      show (s :: t).foldl (fun r s => r ++ s) "" = s ++ String.join t
      rw [List.foldl_cons, ih ("" ++ s)]
      simp
    rw [List.foldl_cons, ih (acc ++ s), hcons, String.append_assoc]

/-- A successful iteration of the line loop appends exactly the line's
`message.content` contribution to the accumulated content. -/
lemma ollamaLineStep_ok_content (st0 st1 : OllamaParseState)
    (line : Option Json) (h : ollamaLineStep st0 line = .ok st1) :
    st1.full_content = st0.full_content ++ lineContent line := by
  unfold ollamaLineStep at h
  cases line with
  | none =>
    simp at h
    rw [← h]
    simp [lineContent]
  | some j =>
    cases j with
    | null => simp at h
    | str s => simp at h
    | num n => simp at h
    | bool b => simp at h
    | arr xs => simp at h
    | obj fields =>
      cases hm : jGet (.obj fields) "message" with
      | none =>
        simp [hm] at h
        rw [← h]
        simp [lineContent, hm]
      | some m =>
        cases m with
        | null => simp [hm] at h
        | str s => simp [hm] at h
        | num n => simp [hm] at h
        | bool b => simp [hm] at h
        | arr xs => simp [hm] at h
        | obj mf =>
          cases hc : jGet (.obj mf) "content" with
          | none =>
            simp [hm, hc] at h
            rw [← h]
            simp [lineContent, hm, hc]
          | some c =>
            cases ht : pythonTruthy c with
            | true =>
              cases c with
              | str s =>
                simp [hm, hc, ht] at h
                rw [← h]
                simp [lineContent, hm, hc]
              | null => simp [pythonTruthy] at ht
              | num n => simp [hm, hc, ht] at h
              | bool b => simp [hm, hc, ht] at h
              | arr xs => simp [hm, hc, ht] at h
              | obj fs => simp [hm, hc, ht] at h
            | false =>
              simp [hm, hc, ht] at h
              rw [← h]
              cases c with
              | str s =>
                have hs : s = "" := by
                  simp [pythonTruthy] at ht
                  exact ht
                simp [lineContent, hm, hc, hs]
              | null => simp [lineContent, hm, hc]
              | num n => simp [lineContent, hm, hc]
              | bool b => simp [lineContent, hm, hc]
              | arr xs => simp [lineContent, hm, hc]
              | obj fs => simp [lineContent, hm, hc]

/-- Content accumulated by a run of the line loop of
`parse_ollama_response` that completes without raising: the concatenation,
in order, of each line's `message.content` contribution. -/
lemma ollamaParseLines_content :
    ∀ (lines : List (Option Json)) (st0 stf : OllamaParseState),
      ollamaParseLines lines st0 = .ok stf →
      stf.full_content =
        st0.full_content ++ String.join (lines.map lineContent) := by
  intro lines
  induction lines with
  | nil =>
    intro st0 stf h
    simp [ollamaParseLines] at h
    rw [← h]
    simp [String.join]
  | cons line rest ih =>
    intro st0 stf h
    unfold ollamaParseLines at h
    cases hstep : ollamaLineStep st0 line with
    | error e =>
      rw [hstep] at h
      exact absurd h (by simp)
    | ok st1 =>
      rw [hstep] at h
      have hrest := ih st1 stf h
      have hone := ollamaLineStep_ok_content st0 st1 line hstep
      have hcons : String.join (lineContent line :: rest.map lineContent) =
          lineContent line ++ String.join (rest.map lineContent) := by
        show (lineContent line :: rest.map lineContent).foldl
            (fun r s => r ++ s) "" = _
        rw [List.foldl_cons, string_join_foldl]
        simp
      rw [hrest, hone, List.map_cons, hcons, String.append_assoc]

/-! ### Claim theorems -/

/-- C1: on every acyclic graph — duplicate-free node list, edges between
nodes of the graph, no cycle — `compute_topological_sort` returns an order
that is a permutation of the nodes (each node, isolated ones included,
appears exactly once), in which every stored edge's source precedes its
target; and recomputing on the unchanged graph yields the identical
sequence. -/
theorem C1_topological_sort_correct (nodes : List NodeId)
    (edges : List EdgePair) (hnd : nodes.Nodup)
    (hcl : ∀ e ∈ edges, e.1 ∈ nodes ∧ e.2 ∈ nodes)
    (hac : Acyclic edges) :
    ∃ order, computeTopologicalSort nodes edges = some order ∧
      order.Perm nodes ∧ (∀ x ∈ nodes, order.count x = 1) ∧
      (∀ e ∈ edges, [e.1, e.2].Sublist order) ∧
      (∀ order2, computeTopologicalSort nodes edges = some order2 →
        order2 = order) := by
  have hdet := detectCycles_of_acyclic nodes edges hac
  have hts := topoSortRun_spec nodes edges hnd hcl hac
  have hcomp : computeTopologicalSort nodes edges =
      some (topoSortRun nodes edges) := by
    unfold computeTopologicalSort
    rw [hdet.1]
    simp
  refine ⟨topoSortRun nodes edges, hcomp, hts.1, ?_, hts.2, ?_⟩
  · intro x hx
    rw [hts.1.count_eq]
    exact List.count_eq_one_of_mem hnd hx
  · intro order2 h2
    rw [hcomp] at h2
    exact (Option.some.injEq _ _).mp h2.symm

/-- Witness for C1 at the chain `A → B → C`. -/
theorem C1_witness :
    Acyclic [("A", "B"), ("B", "C")] ∧
    ∃ order,
      computeTopologicalSort ["A", "B", "C"] [("A", "B"), ("B", "C")] =
        some order ∧
      order.Perm ["A", "B", "C"] ∧
      [("A" : NodeId), "B"].Sublist order := by
  have hac : Acyclic [("A", "B"), ("B", "C")] :=
    acyclic_of_ranking _ (fun s => if s = "A" then 0 else if s = "B" then 1 else 2)
      (by decide)
  obtain ⟨order, h1, h2, _, h4, _⟩ :=
    C1_topological_sort_correct ["A", "B", "C"] [("A", "B"), ("B", "C")]
      (by decide) (by decide) hac
  exact ⟨hac, order, h1, h2, h4 ("A", "B") (by decide)⟩

/-- C3: for every graph whose edges stay between its (duplicate-free) nodes,
`detect_cycles` reports `has_cycle = true` with a non-empty cycle list on a
cyclic edge set — and every reported node-id sequence is a closed walk over
the stored edges — and reports `has_cycle = false` with an empty list on an
acyclic edge set. -/
theorem C3_detect_cycles_correct (nodes : List NodeId) (edges : List EdgePair)
    (hnd : nodes.Nodup)
    (hcl : ∀ e ∈ edges, e.1 ∈ nodes ∧ e.2 ∈ nodes) :
    (¬ Acyclic edges →
      (detectCycles nodes edges).has_cycle = true ∧
      (detectCycles nodes edges).cycles ≠ [] ∧
      ∀ c ∈ (detectCycles nodes edges).cycles, IsClosedWalk edges c) ∧
    (Acyclic edges →
      (detectCycles nodes edges).has_cycle = false ∧
      (detectCycles nodes edges).cycles = []) := by
  constructor
  · intro hcyc
    obtain ⟨h1, h2⟩ := detectCycles_of_cyclic nodes edges hnd hcl hcyc
    exact ⟨h1, h2, detectCycles_walks nodes edges⟩
  · intro hac
    exact detectCycles_of_acyclic nodes edges hac

/-- Witness for C3 at the two-node cycle `A → B → A`. -/
theorem C3_witness :
    (¬ Acyclic [("A", "B"), ("B", "A")]) ∧
    (detectCycles ["A", "B"] [("A", "B"), ("B", "A")]).has_cycle = true ∧
    (detectCycles ["A", "B"] [("A", "B"), ("B", "A")]).cycles ≠ [] := by
  have hcyc : ¬ Acyclic [("A", "B"), ("B", "A")] := by
    intro h
    refine h "A" "B" (by decide) (Relation.ReflTransGen.single ?_)
    show ("B", "A") ∈ [("A", "B"), ("B", "A")]
    decide
  obtain ⟨h1, h2, _⟩ :=
    (C3_detect_cycles_correct ["A", "B"] [("A", "B"), ("B", "A")]
      (by decide) (by decide)).1 hcyc
  exact ⟨hcyc, h1, h2⟩

/-- C2 (amended): executing a graph that contains a cycle aborts during
planning: the report is `none`, the error is the fixed cycle message — the
detected cycle list is attached to the internal `WorkflowError` but dropped
by `str(e)` on the way out — no provider is invoked (empty call trace), and
the store is returned unchanged (no Conversation or Message written). -/
theorem C2_cycle_aborts_unchanged (env : ProviderEnv) (st : DBState)
    (gid : Nat) (hg : (getGraph st gid).isSome = true)
    (hcyc : (detectCycles ((nodesByGraph st gid).map NodeRec.id)
      ((edgesForGraph st gid).map
        (fun e => (e.source_node_id, e.target_node_id)))).has_cycle = true) :
    executeWorkflowWS env st gid =
      ((none, some "Graph contains cycles and cannot be executed sequentially"),
        st, []) := by
  obtain ⟨g, hgeq⟩ := Option.isSome_iff_exists.mp hg
  unfold executeWorkflowWS
  rw [hgeq]
  simp only [hcyc, if_true]

/-- Witness for C2 at a two-node cycle. -/
theorem C2_witness :
    (getGraph cycState 1).isSome = true ∧
    executeWorkflowWS envFail cycState 1 =
      ((none, some "Graph contains cycles and cannot be executed sequentially"),
        cycState, []) :=
  ⟨by decide,
    C2_cycle_aborts_unchanged envFail cycState 1 (by decide) (by decide)⟩

/-- C2 (counterexample): two graphs whose detected cycles differ produce
identical return values from `execute_workflow` — the returned error is a
fixed string and does not carry the detected cycles, contrary to the claim. -/
theorem C2_counterexample :
    (detectCycles ((nodesByGraph cycState 1).map NodeRec.id)
        ((edgesForGraph cycState 1).map
          (fun e => (e.source_node_id, e.target_node_id)))).cycles ≠
      (detectCycles ((nodesByGraph cycState 2).map NodeRec.id)
        ((edgesForGraph cycState 2).map
          (fun e => (e.source_node_id, e.target_node_id)))).cycles ∧
    executeWorkflowWS envFail cycState 1 =
      ((executeWorkflowWS envFail cycState 2).1, cycState, []) := by
  refine ⟨by decide, by decide⟩

/-- C4 (code slip): with nodes `A` and `B` stored and no edge between them,
`EdgeService.create_edge` fails with the TypeError raised by passing the
edge-field dictionary as the single positional argument of
`EdgeRepository.create`, instead of creating the edge with id `A-B`.  The
repository itself, invoked with its three arguments, does satisfy the claim:
the first call stores id `A-B`, and a second call for the same pair — even
with a different edge type — returns the stored edge unchanged and leaves
the edge table unchanged. -/
theorem C4_edge_create_behavior :
    edgeServiceCreateEdge edgeState "A" "B" "provides_context" =
      .error
        "TypeError: create() missing 1 required positional argument: target_id" ∧
    (edgeRepoCreate edgeState "A" "B" "provides_context").1 =
      some ⟨"A-B", "A", "B", "provides_context"⟩ ∧
    (edgeRepoCreate (edgeRepoCreate edgeState "A" "B" "provides_context").2
        "A" "B" "other").1 = some ⟨"A-B", "A", "B", "provides_context"⟩ ∧
    (edgeRepoCreate (edgeRepoCreate edgeState "A" "B" "provides_context").2
        "A" "B" "other").2 =
      (edgeRepoCreate edgeState "A" "B" "provides_context").2 := by
  refine ⟨rfl, by decide, by decide, by decide⟩

/-- C6 (code slip): the parent-context assembly reads
`parent_conversations[0]`, the first-created conversation of the parent (the
query has no ORDER BY), not the most-recently-created one that both the
spec and the code's own comment describe: with an older conversation ending
in assistant content `old` and a newer one ending in `new`, the assembled
parent context is `old`. -/
theorem C6_parent_context_uses_first_conversation :
    convsByNode twoConvState "P" = [⟨1, "P"⟩, ⟨2, "P"⟩] ∧
    parentContextWS twoConvState "P" = "old" ∧
    ((messagesOf twoConvState 2).filter
      (fun m => m.role == "assistant")).getLast? =
      some ⟨2, "assistant", "new"⟩ := by
  refine ⟨by decide, by decide, by decide⟩

/-- C10: deleting a missing edge is a no-op reporting success: when no edge
has the given id, `EdgeService.delete_edge` returns `True` and the store is
returned unchanged. -/
theorem C10_delete_missing_edge_noop (st : DBState) (eid : String)
    (h : getEdge st eid = none) :
    edgeServiceDeleteEdge st eid = (true, st) := by
  unfold edgeServiceDeleteEdge
  rw [h]

/-- Witness for C10 at an id with no stored edge. -/
theorem C10_witness :
    getEdge edgeState "A-B" = none ∧
    edgeServiceDeleteEdge edgeState "A-B" = (true, edgeState) :=
  ⟨by decide, C10_delete_missing_edge_noop edgeState "A-B" (by decide)⟩

/-- C5 (counterexample): running the chain `A → B` through
`WorkflowService.execute_workflow` with the Ollama endpoint answering
HTTP 500.  The run continues and the report holds the error text for both
nodes, but — contrary to the claim — the error text is persisted as an
assistant message in the failed node's conversation, and the successor `B`
receives that text as its parent context instead of the empty string. -/
theorem C5_counterexample :
    (executeWorkflowWS envFail chainState 1).1 =
      (some ⟨["A", "B"],
        [("A", "Error: Ollama API returned status code 500"),
         ("B", "Error: Ollama API returned status code 500")]⟩, none) ∧
    convsByNode (executeWorkflowWS envFail chainState 1).2.1 "A" =
      [⟨1, "A"⟩] ∧
    ((messagesOf (executeWorkflowWS envFail chainState 1).2.1 1).filter
      (fun m => m.role == "assistant")) =
      [⟨1, "assistant", "Error: Ollama API returned status code 500"⟩] ∧
    (executeWorkflowWS envFail chainState 1).2.2 =
      [("A", []),
       ("B", [⟨"A", "Error: Ollama API returned status code 500"⟩])] := by
  refine ⟨by decide, by decide, by decide, by decide⟩

/-- C5 (amended): in the `graph_execution_service` implementation a failing
backend call does not abort the run: for a Groq node with a configured
system message whose conversation already holds a user turn, a non-200 Groq
response yields the error text as the node's result, leaves the store
untouched (the user message is kept and no assistant message is added), the
loop proceeds to the remaining nodes of the order, and — when the node's
conversation has no assistant message — its parent-context text for
successors is the empty string.  (In the `WorkflowService` implementation
the run also continues with the error text as the report entry, but the
providers convert failures into returned strings, so the error text is
additionally persisted as an assistant message, which successors then see
as parent context — see the counterexample.) -/
theorem C5_node_failure_continues (env : ProviderEnv) (st : DBState)
    (nid : NodeId) (node : NodeRec) (c : ConvRec) (code : Nat)
    (body : Except String Json) (rest : List NodeId)
    (acc : List (NodeId × String))
    (hnode : getNode st nid = some node)
    (hb : node.backend = "groq")
    (hsys : node.system_message.isSome = true)
    (hkey : env.groqKey.isSome = true)
    (henv : ∀ p, env.groqPost p = HttpResult.resp code body)
    (hcode : code ≠ 200)
    (hconv : (convsByNode st nid).head? = some c)
    (huser : ((messagesOf st c.id).map
      (fun m => ChatMsg.mk m.role m.content)).any
        (fun m => m.role == "user") = true) :
    executeNodeGES env st nid =
      ("Error: Groq API returned status code " ++ toString code, st) ∧
    runOrderGES env (nid :: rest) st acc =
      runOrderGES env rest st
        (acc ++
          [(nid, "Error: Groq API returned status code " ++ toString code)]) ∧
    (((messagesOf st c.id).filter (fun m => m.role == "assistant")) = [] →
      parentCtxGES st nid = "") := by
  obtain ⟨sys, hsyseq⟩ := Option.isSome_iff_exists.mp hsys
  obtain ⟨k, hkeq⟩ := Option.isSome_iff_exists.mp hkey
  have hb1 : (node.backend == "ollama") = false := by
    rw [hb]; decide
  have hb2 : (node.backend == "groq") = true := by
    rw [hb]; decide
  have hexec : executeNodeGES env st nid =
      ("Error: Groq API returned status code " ++ toString code, st) := by
    unfold executeNodeGES
    rw [hnode]
    simp only [hconv, huser, Bool.not_true, Bool.false_eq_true, if_false,
      hb1, hb2, if_true, hsyseq]
    unfold groqServiceProcessNode
    rw [hkeq]
    simp only [henv]
    rw [if_neg hcode]
  refine ⟨hexec, ?_, ?_⟩
  · show (let r := executeNodeGES env st nid
      runOrderGES env rest r.2 (acc ++ [(nid, r.1)])) = _
    rw [hexec]
  · intro hno
    unfold parentCtxGES
    rw [hconv]
    simp [hno]

/-- Witness for the amended C5 at the chain `G → H` with a failing Groq
endpoint. -/
theorem C5_witness :
    executeNodeGES envGroq500 groqConvState "G" =
      ("Error: Groq API returned status code 500", groqConvState) ∧
    runOrderGES envGroq500 ["G", "H"] groqConvState [] =
      runOrderGES envGroq500 ["H"] groqConvState
        [("G", "Error: Groq API returned status code 500")] ∧
    parentCtxGES groqConvState "G" = "" := by
  obtain ⟨h1, h2, h3⟩ := C5_node_failure_continues envGroq500 groqConvState
    "G" ⟨"G", 1, "G", "groq", "m", some "sg", 1, 100⟩ ⟨1, "G"⟩ 500
    (.error "boom") ["H"] [] (by decide) rfl (by decide) (by decide)
    (fun _ => rfl) (by decide) (by decide) (by decide)
  exact ⟨h1, h2, h3 (by decide)⟩

/-- C7 (counterexample): after the failing run of the chain `A → B`, node
`A`'s implicitly created conversation holds the synthesized user message
followed by an assistant message carrying the error text — contradicting the
claim that on failure the conversation holds the one user message and no
assistant message. -/
theorem C7_counterexample :
    convsByNode (executeWorkflowWS envFail chainState 1).2.1 "A" =
      [⟨1, "A"⟩] ∧
    messagesOf (executeWorkflowWS envFail chainState 1).2.1 1 =
      [⟨1, "user", defaultUserMessage⟩,
       ⟨1, "assistant", "Error: Ollama API returned status code 500"⟩] := by
  refine ⟨by decide, by decide⟩

/-- C7 (amended): in `WorkflowService.execute_workflow`, executing an Ollama
node that has no conversation creates one, persists the synthesized user
message before the provider call, and then persists the provider's returned
string as the assistant message; after one execution the conversation
contains exactly the one synthesized user message followed by one assistant
message whose content is the provider result — the backend result on
success, or the error text on failure (the provider converts failures into
returned strings). -/
theorem C7_synthesized_user_message (env : ProviderEnv) (st : DBState)
    (nid : NodeId) (node : NodeRec)
    (hnode : getNode st nid = some node)
    (hb : node.backend = "ollama")
    (hnoconv : convsByNode st nid = [])
    (hfresh : messagesOf st st.nextConvId = []) :
    ∃ R, R = ollamaProviderProcessNode env node.model
        (node.system_message.getD "") node.temperature node.max_tokens
        (wsParentContexts st nid) [⟨"user", defaultUserMessage⟩] ∧
      wsRunLoop env [nid] st [] [] =
        (.ok [(nid, R)],
          { graphs := st.graphs, nodes := st.nodes, edges := st.edges,
            convs := st.convs ++ [⟨st.nextConvId, nid⟩],
            msgs := st.msgs ++
              [⟨st.nextConvId, "user", defaultUserMessage⟩,
               ⟨st.nextConvId, "assistant", R⟩],
            nextConvId := st.nextConvId + 1 },
          [(nid, wsParentContexts st nid)]) ∧
      messagesOf
        { graphs := st.graphs, nodes := st.nodes, edges := st.edges,
          convs := st.convs ++ [⟨st.nextConvId, nid⟩],
          msgs := st.msgs ++
            [⟨st.nextConvId, "user", defaultUserMessage⟩,
             ⟨st.nextConvId, "assistant", R⟩],
          nextConvId := st.nextConvId + 1 } st.nextConvId =
        [⟨st.nextConvId, "user", defaultUserMessage⟩,
         ⟨st.nextConvId, "assistant", R⟩] := by
  have hb1 : (node.backend == "ollama") = true := by
    rw [hb]; decide
  have hfresh2 : st.msgs.filter
      (fun m => m.conversation_id == st.nextConvId) = [] := hfresh
  have hmsgs : messagesOf
      { graphs := st.graphs, nodes := st.nodes, edges := st.edges,
        convs := st.convs ++ [⟨st.nextConvId, nid⟩],
        msgs := st.msgs ++
          [⟨st.nextConvId, "user", defaultUserMessage⟩,
           ⟨st.nextConvId, "assistant",
             ollamaProviderProcessNode env node.model
               (node.system_message.getD "") node.temperature node.max_tokens
               (wsParentContexts st nid) [⟨"user", defaultUserMessage⟩]⟩],
        nextConvId := st.nextConvId + 1 } st.nextConvId =
      [⟨st.nextConvId, "user", defaultUserMessage⟩,
       ⟨st.nextConvId, "assistant",
         ollamaProviderProcessNode env node.model
           (node.system_message.getD "") node.temperature node.max_tokens
           (wsParentContexts st nid) [⟨"user", defaultUserMessage⟩]⟩] := by
    unfold messagesOf
    rw [List.filter_append, hfresh2]
    simp
  refine ⟨_, rfl, ?_, hmsgs⟩
  unfold wsRunLoop
  rw [hnode]
  simp only [hnoconv, createConv]
  have hfresh3 : messagesOf
      { graphs := st.graphs, nodes := st.nodes, edges := st.edges,
        convs := st.convs ++ [⟨st.nextConvId, nid⟩],
        msgs := st.msgs, nextConvId := st.nextConvId + 1 } st.nextConvId =
      ([] : List MsgRec) := hfresh
  simp only [hfresh3, List.map_nil, List.any_nil, Bool.not_false, if_true,
    List.nil_append, hb1, addMessage]
  unfold wsRunLoop
  simp [List.append_assoc]

/-- Witness for the amended C7: a single fresh Ollama node executed against
an echoing endpoint. -/
theorem C7_witness :
    ∃ R, R = ollamaProviderProcessNode envEcho "m" "s" 1 100
        (wsParentContexts edgeState "A") [⟨"user", defaultUserMessage⟩] ∧
      wsRunLoop envEcho ["A"] edgeState [] [] =
        (.ok [("A", R)],
          { graphs := [1], nodes := edgeState.nodes, edges := [],
            convs := [⟨1, "A"⟩],
            msgs := [⟨1, "user", defaultUserMessage⟩, ⟨1, "assistant", R⟩],
            nextConvId := 2 },
          [("A", wsParentContexts edgeState "A")]) ∧
      messagesOf
        { graphs := [1], nodes := edgeState.nodes, edges := [],
          convs := [⟨1, "A"⟩],
          msgs := [⟨1, "user", defaultUserMessage⟩, ⟨1, "assistant", R⟩],
          nextConvId := 2 } 1 =
        [⟨1, "user", defaultUserMessage⟩, ⟨1, "assistant", R⟩] :=
  C7_synthesized_user_message envEcho edgeState "A"
    ⟨"A", 1, "A", "ollama", "m", some "s", 1, 100⟩
    (by decide) rfl (by decide) (by decide)

/-- C8 (counterexample): a `graph_execution_service` run of the chain
`X → Y`, where `X` carries the unregistered backend key `magic`, does not
fail: the unsupported-backend text is recorded as `X`'s per-node result
string, execution continues to `Y` (which succeeds), and the run returns a
report with no error — contradicting the claim that such a run aborts with a
surfaced UnsupportedBackend-class error. -/
theorem C8_counterexample :
    executeWorkflowGES envEcho unknownBackendState 1 ["X", "Y"] =
      ((some [("X", "Error: Unsupported backend: magic"), ("Y", "echo")],
        none), unknownBackendState) := by
  decide

/-- C8 (amended): in `WorkflowService.execute_workflow` an unregistered
backend key does abort the whole run: `AIProviderFactory.get_provider`
raises `ValueError`, the loop stops before invoking any provider for this or
any later node (the invocation trace is unchanged), and the error surfaces
to the caller as the run's error string.  (In the `graph_execution_service`
implementation the same condition is instead recorded as the node's result
string and the run continues — see the counterexample.) -/
theorem C8_unknown_backend_aborts_ws (env : ProviderEnv) (st : DBState)
    (nid : NodeId) (node : NodeRec) (rest : List NodeId)
    (results : List (NodeId × String))
    (trace : List (NodeId × List ParentCtx))
    (hnode : getNode st nid = some node)
    (h1 : (node.backend == "ollama") = false)
    (h2 : (node.backend == "groq") = false) :
    ∃ st2, wsRunLoop env (nid :: rest) st results trace =
      (.error
        ("Error executing workflow: Unsupported backend: " ++ node.backend),
        st2, trace) := by
  unfold wsRunLoop
  rw [hnode]
  simp only [h1, h2, Bool.false_eq_true, if_false]
  exact ⟨_, rfl⟩

/-- Witness for the amended C8 at the backend key `magic`. -/
theorem C8_witness :
    ∃ st2, wsRunLoop envEcho ["X"] unknownBackendState [] [] =
      (.error "Error executing workflow: Unsupported backend: magic",
        st2, []) :=
  C8_unknown_backend_aborts_ws envEcho unknownBackendState "X"
    ⟨"X", 1, "X", "magic", "m", some "s", 1, 100⟩ [] [] []
    (by decide) (by decide) (by decide)

/-- C9 (counterexample): a successful non-streaming Groq completion through
`handle_chat` returns the provider's raw envelope (`choices` array) — the
assistant content is extracted and persisted, but the returned value is not
the normalized `\x7bmodel, message: \x7brole: "assistant", content\x7d\x7d` shape the
claim requires of every backend adapter. -/
theorem C9_counterexample :
    (groqHandleChat envGroqOk ⟨"m", [⟨"user", "hi"⟩], 1, 100⟩ 1 edgeState).1 =
      groqEnvelope ∧
    isNormalizedChatShape groqEnvelope = false ∧
    (groqHandleChat envGroqOk ⟨"m", [⟨"user", "hi"⟩], 1, 100⟩ 1 edgeState).2 =
      addMessage edgeState 1 "assistant" "hi" := by
  refine ⟨rfl, by decide, by decide⟩

/-- C9 (amended): the Ollama adapters do normalize every successful parse:
for every 200-status response whose line loop completes without raising —
every decoded line is an object, and every `message` value and every truthy
`message.content` it carries have the types the loop concatenates — and
whose last decoded object is truthy, `parse_ollama_response` returns
exactly `\x7bmodel, message: \x7brole: "assistant", content\x7d\x7d`, where the
content is the in-order concatenation of every line's `message.content`
contribution; a raising loop instead yields `\x7b"error": str(e)\x7d` from the
outer handler.  (The Groq adapter `handle_chat` instead returns the raw
provider envelope — see the counterexample.) -/
theorem C9_ollama_normalized (lines : List (Option Json))
    (stf : OllamaParseState) (last : Json)
    (hrun : ollamaParseLines lines ⟨none, ""⟩ = .ok stf)
    (hlast : stf.last_response = some last)
    (ht : pythonTruthy last = true) :
    parseOllamaResponse 200 lines =
      .obj [("model", jGetD last "model" (.str "")),
            ("message", .obj [("role", .str "assistant"),
              ("content",
                .str (String.join (lines.map lineContent)))])] ∧
    isNormalizedChatShape (parseOllamaResponse 200 lines) = true := by
  have hcontent := ollamaParseLines_content lines ⟨none, ""⟩ stf hrun
  have hmain : parseOllamaResponse 200 lines =
      .obj [("model", jGetD last "model" (.str "")),
            ("message", .obj [("role", .str "assistant"),
              ("content",
                .str (String.join (lines.map lineContent)))])] := by
    unfold parseOllamaResponse
    rw [if_neg (by simp)]
    rw [hrun]
    simp only [hlast, ht, if_true, hcontent]
    simp
  exact ⟨hmain, by rw [hmain]; rfl⟩

/-- Witness for the amended C9: two streamed partial objects whose contents
concatenate to `Hello`; the loop completes without raising and both decoded
objects are non-empty. -/
theorem C9_witness :
    parseOllamaResponse 200
      [some (.obj [("model", .str "m"),
        ("message", .obj [("role", .str "assistant"),
                          ("content", .str "He")])]),
       some (.obj [("message", .obj [("role", .str "assistant"),
                          ("content", .str "llo")]),
        ("done", .bool true)])] =
      .obj [("model", .str ""),
            ("message", .obj [("role", .str "assistant"),
              ("content", .str "Hello")])] ∧
    isNormalizedChatShape (parseOllamaResponse 200
      [some (.obj [("model", .str "m"),
        ("message", .obj [("role", .str "assistant"),
                          ("content", .str "He")])]),
       some (.obj [("message", .obj [("role", .str "assistant"),
                          ("content", .str "llo")]),
        ("done", .bool true)])]) = true :=
  C9_ollama_normalized
    [some (.obj [("model", .str "m"),
      ("message", .obj [("role", .str "assistant"),
                        ("content", .str "He")])]),
     some (.obj [("message", .obj [("role", .str "assistant"),
                        ("content", .str "llo")]),
      ("done", .bool true)])]
    ⟨some (.obj [("message", .obj [("role", .str "assistant"),
                        ("content", .str "llo")]),
      ("done", .bool true)]), "Hello"⟩
    (.obj [("message", .obj [("role", .str "assistant"),
                        ("content", .str "llo")]),
      ("done", .bool true)]) rfl rfl rfl

end AICanvas
